import Mathlib

/-
  Verification development for the exitplan repository.

  The repository implements a graceful-shutdown orchestrator
  (package exitplan, type ExecutionPlan).  We give a shallow
  embedding of:

  * the registration-phase API of ExecutionPlan
    (Add, AddMany, Finally, NewExitChan, IsTerminating, HandlerFunc),
    as pure functions on a record PlanR;

  * the shutdown goroutine started by ExecutionPlan.Start, together
    with the broadcast goroutine, the per-operation goroutines, the
    deadline timer of time.AfterFunc, and a subscriber calling
    NewExitChan concurrently, as a deterministic small-step system
    driven by an explicit scheduler (a list of thread identifiers).
    All interleavings of the Go program correspond to schedules, so
    universally quantified theorems over schedules cover every
    behaviour of the code, and a single schedule exhibits one
    concrete behaviour;

  * the critical section of Start guarded by the interruptListen
    mutex, as a two-thread mutex system, for the double-Start claim.
-/

namespace ExitPlan

/-- Atomic actions of the shutdown goroutine spawned by Start, in the
order they appear in the Go source: set isTerminating, spawn the
broadcast goroutine over the captured termListeners slice, sleep the
grade period, arm the deadline timer, spawn one goroutine per callback
(wg.Add(1) plus go), wg.Wait(), timeoutFunc.Stop(), run the final
callback (the Bool is the success of its error result), close the
completion channel. -/
inductive MAct where
  | setTerm
  | spawnBcast
  | sleepGrade
  | armDeadline
  | spawnOp (k : String) (ok : Bool)
  | waitAll
  | disarm
  | runFinal (ok : Bool)
  | closeHandle
deriving DecidableEq, Repr

/-- Observable events of a run of the whole system.  The deadline
timer contributes two events, reflecting time.AfterFunc: timerExpire
is the timer expiring and starting its callback goroutine (after which
timeoutFunc.Stop() is a no-op returning false, a result the code
ignores), and deadlineFire is that callback's os.Exit(0), which can be
scheduled arbitrarily later (it runs log.Printf first). -/
inductive Ev where
  | setTerm
  | spawnBcast
  | sleepGrade
  | armDeadline
  | spawnOp (k : String)
  | waitAll
  | disarm
  | runFinal (ok : Bool)
  | closeHandle
  | closeListener (i : Nat)
  | opRun (k : String) (ok : Bool)
  | timerExpire
  | deadlineFire
  | newListener (i : Nat)
deriving DecidableEq, Repr

/-- Thread identifiers: the shutdown goroutine, the broadcast
goroutine, a cleanup-operation goroutine (identified by its map entry),
the deadline timer, and an external subscriber calling NewExitChan. -/
inductive Tid where
  | tmain
  | tbcast
  | top (kv : String × Bool)
  | ttimer
  | tsub
deriving DecidableEq, Repr

/-- Global state of the system.  mainP is the remaining program of the
shutdown goroutine; bcastP is none until the broadcast goroutine is
spawned, then the listeners it still has to close; pending are spawned
but not yet executed cleanup operations (the WaitGroup counter is its
length); subP are the NewExitChan calls the subscriber will still
make; listeners mirrors p.termListeners; term mirrors p.isTerminating;
armed is true while the deadline timer is armed and has neither been
stopped nor expired; firePending is true once the timer has expired
and its callback goroutine (log.Printf then os.Exit) is in flight —
a state Stop() can no longer cancel; exited records os.Exit. -/
structure Config where
  mainP : List MAct
  bcastP : Option (List Nat)
  pending : List (String × Bool)
  subP : List Nat
  listeners : List Nat
  term : Bool
  armed : Bool
  firePending : Bool
  exited : Bool
deriving DecidableEq, Repr

/-- The dispatch loop: for key, op := range p.callbacks, one spawn per
entry of the snapshot (Go map iteration: each key exactly once, order
arbitrary; cbs is that iteration sequence, the Bool is whether the
operation returns nil). -/
def dispatchActs (cbs : List (String × Bool)) : List MAct :=
  cbs.map (fun kv => MAct.spawnOp kv.1 kv.2)

/-- Tail of the shutdown goroutine after timeoutFunc.Stop(): the final
callback if set, then close(sigChannel).  On a final-callback error the
goroutine returns early, which the step function models by discarding
the rest of the program. -/
def finActs (fin : Option Bool) : List MAct :=
  match fin with
  | none => [MAct.closeHandle]
  | some ok => [MAct.runFinal ok, MAct.closeHandle]

/-- The straight-line program of the shutdown goroutine of Start,
from the moment the signal is received. -/
def mainProg (cbs : List (String × Bool)) (fin : Option Bool) : List MAct :=
  [MAct.setTerm, MAct.spawnBcast, MAct.sleepGrade, MAct.armDeadline] ++
    (dispatchActs cbs ++ (MAct.waitAll :: MAct.disarm :: finActs fin))

/-- One step of the shutdown goroutine. -/
def mainStep (c : Config) : Option (Config × Ev) :=
  match c.mainP with
  | [] => none
  | MAct.setTerm :: rest =>
      some ({ c with mainP := rest, term := true }, Ev.setTerm)
  | MAct.spawnBcast :: rest =>
      some ({ c with mainP := rest, bcastP := some c.listeners }, Ev.spawnBcast)
  | MAct.sleepGrade :: rest =>
      some ({ c with mainP := rest }, Ev.sleepGrade)
  | MAct.armDeadline :: rest =>
      some ({ c with mainP := rest, armed := true }, Ev.armDeadline)
  | MAct.spawnOp k ok :: rest =>
      some ({ c with mainP := rest, pending := c.pending ++ [(k, ok)] }, Ev.spawnOp k)
  | MAct.waitAll :: rest =>
      if c.pending = [] then some ({ c with mainP := rest }, Ev.waitAll) else none
  | MAct.disarm :: rest =>
      some ({ c with mainP := rest, armed := false }, Ev.disarm)
  | MAct.runFinal true :: rest =>
      some ({ c with mainP := rest }, Ev.runFinal true)
  | MAct.runFinal false :: _ =>
      some ({ c with mainP := [] }, Ev.runFinal false)
  | MAct.closeHandle :: rest =>
      some ({ c with mainP := rest }, Ev.closeHandle)

/-- One step of the whole system: the scheduled thread acts if it has
an enabled action (after os.Exit nothing acts). -/
def step (c : Config) (t : Tid) : Option (Config × Ev) :=
  if c.exited then none else
  match t with
  | Tid.tmain => mainStep c
  | Tid.tbcast =>
      match c.bcastP with
      | some (i :: rest) => some ({ c with bcastP := some rest }, Ev.closeListener i)
      | _ => none
  | Tid.top kv =>
      if kv ∈ c.pending then
        some ({ c with pending := c.pending.erase kv }, Ev.opRun kv.1 kv.2)
      else none
  | Tid.ttimer =>
      if c.armed then
        some ({ c with armed := false, firePending := true }, Ev.timerExpire)
      else if c.firePending then
        some ({ c with exited := true }, Ev.deadlineFire)
      else none
  | Tid.tsub =>
      match c.subP with
      | j :: rest =>
          some ({ c with subP := rest, listeners := c.listeners ++ [j] }, Ev.newListener j)
      | [] => none

/-- Run a schedule; a scheduled thread without an enabled action is
skipped.  Returns the final state and the event trace. -/
def run (c : Config) : List Tid → Config × List Ev
  | [] => (c, [])
  | t :: ts =>
      match step c t with
      | none => run c ts
      | some (c', e) => ((run c' ts).1, e :: (run c' ts).2)

/-- Initial state at the moment the first matching signal is received:
preL are the listener channels registered by NewExitChan before the
signal, cbs the callback snapshot, fin the final callback, subs the
NewExitChan calls that may still arrive concurrently. -/
def initConf (preL : List Nat) (cbs : List (String × Bool)) (fin : Option Bool)
    (subs : List Nat) : Config :=
  { mainP := mainProg cbs fin, bcastP := none, pending := [], subP := subs,
    listeners := preL, term := false, armed := false, firePending := false,
    exited := false }

/-- e occurs strictly before the first occurrence of f in tr (and in
particular e occurs). -/
def Before (e f : Ev) (tr : List Ev) : Prop :=
  e ∈ tr.takeWhile (fun x => !(x == f))

instance (e f : Ev) (tr : List Ev) : Decidable (Before e f tr) := by
  unfold Before; infer_instance

/-!  Registration-phase API of ExecutionPlan, as pure state-passing
functions.  Op stands for the Go type ExitOperation; the callbacks map
is a finite map String to Op; termListeners holds the channels handed
out by NewExitChan, identified by Nat. -/

structure PlanR (Op : Type) where
  Signals : List Nat
  Timeout : Nat
  GradePeriod : Nat
  callbacks : String → Option Op
  finalCallback : Option Op
  isTerminating : Bool
  termListeners : List Nat

variable {Op : Type}

/-- func (p *ExecutionPlan) IsTerminating() bool { return p.isTerminating } -/
def PlanR.IsTerminating (p : PlanR Op) : Bool :=
  p.isTerminating

/-- func (p *ExecutionPlan) Add(name string, handler ExitOperation):
p.callbacks[name] = handler. -/
def PlanR.Add (p : PlanR Op) (name : String) (handler : Op) : PlanR Op :=
  { p with callbacks := fun k => if k = name then some handler else p.callbacks k }

/-- func (p *ExecutionPlan) AddMany(many map[string]ExitOperation):
for k, v := range many { p.callbacks[k] = v }.  The argument list is
the iteration sequence of the Go map: its entries in some order, each
key once. -/
def PlanR.AddMany (p : PlanR Op) (many : List (String × Op)) : PlanR Op :=
  many.foldl
    (fun q kv => { q with callbacks := fun k => if k = kv.1 then some kv.2 else q.callbacks k })
    p

/-- func (p *ExecutionPlan) Finally(handler ExitOperation):
p.finalCallback = handler. -/
def PlanR.Finally (p : PlanR Op) (handler : Op) : PlanR Op :=
  { p with finalCallback := some handler }

/-- func (p *ExecutionPlan) NewExitChan() chan struct; makes a fresh
channel (identified by the caller-supplied fresh id), appends it to
p.termListeners under termLock, and returns it. -/
def PlanR.NewExitChan (p : PlanR Op) (fresh : Nat) : PlanR Op × Nat :=
  ({ p with termListeners := p.termListeners ++ [fresh] }, fresh)

/-- An HTTP response as far as HandlerFunc is concerned: the status
code written by WriteHeader and the body written by Write. -/
structure HttpResponse where
  status : Nat
  body : String
deriving DecidableEq, Repr

def statusOK : Nat := 200

def statusServiceUnavailable : Nat := 503

/-- func (p *ExecutionPlan) HandlerFunc(w, r): if p.IsTerminating()
then 503 terminating else 200 ok; the plan is passed through
untouched. -/
def PlanR.HandlerFunc (p : PlanR Op) : PlanR Op × HttpResponse :=
  if p.IsTerminating then
    (p, { status := statusServiceUnavailable, body := "terminating" })
  else
    (p, { status := statusOK, body := "ok" })

/-!  Wait and the completion handle.  Start returns sigChannel, a
struct-typed channel that is never sent on; a receive on such a
channel unblocks exactly when the channel is closed.  Wait(ctx) is
literally a receive on Start(ctx)'s channel. -/

structure HandleChan where
  closed : Bool
deriving DecidableEq, Repr

/-- Receive on a channel that is never sent on: unblocks iff closed. -/
def recvUnblocks (h : HandleChan) : Bool :=
  h.closed

/-- The completion handle returned by Start, as observed at the end of
a run: closed iff the shutdown goroutine executed close(sigChannel). -/
def startHandle (preL : List Nat) (cbs : List (String × Bool)) (fin : Option Bool)
    (subs : List Nat) (sched : List Tid) : HandleChan :=
  { closed := decide (Ev.closeHandle ∈ (run (initConf preL cbs fin subs) sched).2) }

/-- Wait(ctx) performs a receive on the channel returned by
Start(ctx); it has returned at the end of a run iff that receive has
unblocked. -/
def waitReturns (preL : List Nat) (cbs : List (String × Bool)) (fin : Option Bool)
    (subs : List Nat) (sched : List Tid) : Bool :=
  recvUnblocks (startHandle preL cbs fin subs sched)

/-!  The interruptListen mutex of Start.  Each call of Start runs
lock, make(chan), go listener-goroutine, unlock (the unlock is
deferred to the return of Start).  Two concurrent calls on the same
plan are two threads of this program racing on the one mutex. -/

inductive SAct where
  | lock
  | mkChan
  | spawnListener
  | unlock
deriving DecidableEq, Repr

/-- The body of Start as guarded by interruptListen: lock, create
sigChannel, spawn the signal-listener goroutine, unlock on return. -/
def startBody : List SAct :=
  [SAct.lock, SAct.mkChan, SAct.spawnListener, SAct.unlock]

/-- State of two concurrent Start invocations A and B: their remaining
programs, the mutex holder (none when free), and counters of channels
created and signal-listener goroutines installed. -/
structure SConfig where
  progA : List SAct
  progB : List SAct
  holder : Option Bool
  chansMade : Nat
  listenersInstalled : Nat
deriving DecidableEq, Repr

def withProg (c : SConfig) (who : Bool) (rest : List SAct) : SConfig :=
  if who then { c with progB := rest } else { c with progA := rest }

/-- One step of thread who (false is A, true is B); a lock attempt
while the other thread holds the mutex is disabled. -/
def sstep (c : SConfig) (who : Bool) : Option SConfig :=
  match (if who then c.progB else c.progA) with
  | [] => none
  | SAct.lock :: rest =>
      if c.holder = none then some { withProg c who rest with holder := some who }
      else none
  | SAct.mkChan :: rest =>
      some { withProg c who rest with chansMade := c.chansMade + 1 }
  | SAct.spawnListener :: rest =>
      some { withProg c who rest with listenersInstalled := c.listenersInstalled + 1 }
  | SAct.unlock :: rest =>
      some { withProg c who rest with holder := none }

def srun (c : SConfig) : List Bool → SConfig
  | [] => c
  | w :: ws =>
      match sstep c w with
      | none => srun c ws
      | some c' => srun c' ws

/-- Two invocations of Start on the same plan, mutex initially free. -/
def sInit : SConfig :=
  { progA := startBody, progB := startBody, holder := none,
    chansMade := 0, listenersInstalled := 0 }

/-!  Generic list helpers. -/

theorem suffix_head_notin {α : Type} {a : α} {r tail : List α} :
    ∀ pre : List α, (a :: r) <:+ pre ++ tail → a ∉ pre → (a :: r) <:+ tail := by
  intro pre
  induction pre with
  | nil => intro h _; simpa using h
  | cons p pre ih =>
      intro h hnot
      rcases List.suffix_cons_iff.1 h with heq | hsuf
      · injection heq with h1 _
        exact absurd (by simp [h1]) hnot
      · exact ih hsuf (fun hm => hnot (List.mem_cons_of_mem _ hm))

theorem suffix_total {α : Type} {l₁ l₂ : List α} :
    ∀ {m : List α}, l₁ <:+ m → l₂ <:+ m → l₁ <:+ l₂ ∨ l₂ <:+ l₁ := by
  intro m
  induction m generalizing l₁ l₂ with
  | nil =>
      intro h₁ h₂
      rw [List.suffix_nil.1 h₁, List.suffix_nil.1 h₂]
      exact Or.inl List.suffix_rfl
  | cons a m ih =>
      intro h₁ h₂
      rcases List.suffix_cons_iff.1 h₁ with he₁ | hs₁
      · subst he₁; exact Or.inr h₂
      · rcases List.suffix_cons_iff.1 h₂ with he₂ | hs₂
        · subst he₂; exact Or.inl h₁
        · exact ih hs₁ hs₂

theorem suffix_whole_of_head_mem {α : Type} {a : α} {l T : List α}
    (h : l <:+ a :: T) (hnot : a ∉ T) (hmem : a ∈ l) : l = a :: T := by
  rcases List.suffix_cons_iff.1 h with he | hs
  · exact he
  · exact absurd (hs.subset hmem) hnot

/-!  Facts about the shape of mainProg. -/

theorem mainProg_decomp (cbs : List (String × Bool)) (fin : Option Bool) :
    mainProg cbs fin =
      ([MAct.setTerm, MAct.spawnBcast, MAct.sleepGrade, MAct.armDeadline] ++ dispatchActs cbs)
        ++ (MAct.waitAll :: MAct.disarm :: finActs fin) := by
  simp [mainProg]

theorem notin_dispatch {a : MAct} (h : ∀ k ok, a ≠ MAct.spawnOp k ok)
    {cbs : List (String × Bool)} : a ∉ dispatchActs cbs := by
  intro hm
  rcases List.mem_map.1 hm with ⟨kv, _, hkv⟩
  exact h kv.1 kv.2 hkv.symm

theorem spawn_mem_dispatch {k : String} {ok : Bool} {cbs : List (String × Bool)}
    (h : MAct.spawnOp k ok ∈ dispatchActs cbs) : (k, ok) ∈ cbs := by
  rcases List.mem_map.1 h with ⟨kv, hkv, he⟩
  obtain ⟨h1, h2⟩ := MAct.spawnOp.inj he
  cases kv
  simp only at h1 h2
  subst h1; subst h2
  exact hkv

theorem spawn_mem_mainProg {k : String} {ok : Bool} {cbs : List (String × Bool)}
    {fin : Option Bool} (h : MAct.spawnOp k ok ∈ mainProg cbs fin) : (k, ok) ∈ cbs := by
  apply spawn_mem_dispatch
  unfold mainProg at h
  rcases List.mem_append.1 h with h4 | h5
  · simp at h4
  · rcases List.mem_append.1 h5 with hd | ht
    · exact hd
    · exfalso
      rcases fin with _ | b <;> simp [finActs] at ht

theorem setTerm_mem_mainProg {cbs : List (String × Bool)} {fin : Option Bool} :
    MAct.setTerm ∈ mainProg cbs fin := by
  simp [mainProg]

theorem closeHandle_mem_mainProg {cbs : List (String × Bool)} {fin : Option Bool} :
    MAct.closeHandle ∈ mainProg cbs fin := by
  rcases fin with _ | b <;> simp [mainProg, finActs]

/-!  Lemmas about Before. -/

theorem takeWhile_of_all {α : Type} {p : α → Bool} {tr : List α}
    (h : ∀ x ∈ tr, p x = true) : tr.takeWhile p = tr := by
  induction tr with
  | nil => rfl
  | cons a tr ih =>
      rw [List.takeWhile_cons, if_pos (h a (List.mem_cons_self a tr)),
        ih (fun x hx => h x (List.mem_cons_of_mem _ hx))]

theorem before_mem {e f : Ev} {tr : List Ev} (h : Before e f tr) : e ∈ tr := by
  unfold Before at h
  induction tr with
  | nil => simp at h
  | cons a tr ih =>
      rw [List.takeWhile_cons] at h
      by_cases hf : a = f
      · rw [if_neg (by simp [hf])] at h; simp at h
      · rw [if_pos (by simp [hf])] at h
        rcases List.mem_cons.1 h with he | ht
        · exact he ▸ List.mem_cons_self _ _
        · exact List.mem_cons_of_mem _ (ih ht)

theorem before_append {e f : Ev} {tr l : List Ev} (h : Before e f tr) :
    Before e f (tr ++ l) := by
  unfold Before at *
  induction tr with
  | nil => simp at h
  | cons a tr ih =>
      rw [List.takeWhile_cons] at h
      rw [List.cons_append, List.takeWhile_cons]
      by_cases hf : a = f
      · rw [if_neg (by simp [hf])] at h; simp at h
      · rw [if_pos (by simp [hf])] at h
        rw [if_pos (by simp [hf])]
        rcases List.mem_cons.1 h with he | ht
        · exact he ▸ List.mem_cons_self _ _
        · exact List.mem_cons_of_mem _ (ih ht)

theorem before_of_not_mem {e f : Ev} {tr : List Ev} (hf : f ∉ tr) (he : e ∈ tr) :
    Before e f tr := by
  unfold Before
  rw [takeWhile_of_all]
  · exact he
  · intro x hx
    simp only [Bool.not_eq_true', beq_eq_false_iff_ne, ne_eq]
    intro hxf
    exact hf (hxf ▸ hx)

theorem before_asymm {e f : Ev} {tr : List Ev}
    (h₁ : Before e f tr) (h₂ : Before f e tr) : False := by
  unfold Before at h₁ h₂
  induction tr with
  | nil => simp at h₁
  | cons a tr ih =>
      rw [List.takeWhile_cons] at h₁ h₂
      by_cases haf : a = f
      · rw [if_neg (by simp [haf])] at h₁; simp at h₁
      · rw [if_pos (by simp [haf])] at h₁
        by_cases hae : a = e
        · rw [if_neg (by simp [hae])] at h₂; simp at h₂
        · rw [if_pos (by simp [hae])] at h₂
          rcases List.mem_cons.1 h₁ with he | ht₁
          · exact hae he.symm
          · rcases List.mem_cons.1 h₂ with hf2 | ht₂
            · exact haf hf2.symm
            · exact ih ht₁ ht₂

/-!  Composition of runs. -/

theorem run_append (c : Config) (s₁ s₂ : List Tid) :
    run c (s₁ ++ s₂) =
      ((run (run c s₁).1 s₂).1, (run c s₁).2 ++ (run (run c s₁).1 s₂).2) := by
  induction s₁ generalizing c with
  | nil => simp [run]
  | cons t s₁ ih =>
      rw [List.cons_append]
      cases hstep : step c t with
      | none => simp only [run, hstep]; exact ih c
      | some ce => simp only [run, hstep, ih ce.1, List.cons_append]

/-!  What the remaining main program can look like at the various
head actions, given that it is a suffix of mainProg. -/

theorem hp_unique {α : Type} (pre : List α) {a : α} {r T : List α}
    (h : (a :: r) <:+ pre ++ (a :: T)) (hpre : a ∉ pre) (hT : a ∉ T) : r = T := by
  have h2 := suffix_head_notin pre h hpre
  have heq := suffix_whole_of_head_mem h2 hT (List.mem_cons_self _ _)
  injection heq

theorem mainProg_decomp₂ (cbs : List (String × Bool)) (fin : Option Bool) :
    mainProg cbs fin =
      (([MAct.setTerm, MAct.spawnBcast, MAct.sleepGrade, MAct.armDeadline] ++
        dispatchActs cbs) ++ [MAct.waitAll, MAct.disarm]) ++ finActs fin := by
  simp [mainProg]

theorem hp_setTerm {r : List MAct} {cbs : List (String × Bool)} {fin : Option Bool}
    (h : (MAct.setTerm :: r) <:+ mainProg cbs fin) :
    r = [MAct.spawnBcast, MAct.sleepGrade, MAct.armDeadline] ++
        (dispatchActs cbs ++ (MAct.waitAll :: MAct.disarm :: finActs fin)) := by
  refine hp_unique [] h (by simp) ?_
  rcases fin with _ | b <;> simp [dispatchActs, finActs]

theorem hp_spawnB {r : List MAct} {cbs : List (String × Bool)} {fin : Option Bool}
    (h : (MAct.spawnBcast :: r) <:+ mainProg cbs fin) :
    r = [MAct.sleepGrade, MAct.armDeadline] ++
        (dispatchActs cbs ++ (MAct.waitAll :: MAct.disarm :: finActs fin)) := by
  refine hp_unique [MAct.setTerm] h (by simp) ?_
  rcases fin with _ | b <;> simp [dispatchActs, finActs]

theorem hp_sleep {r : List MAct} {cbs : List (String × Bool)} {fin : Option Bool}
    (h : (MAct.sleepGrade :: r) <:+ mainProg cbs fin) :
    r = [MAct.armDeadline] ++
        (dispatchActs cbs ++ (MAct.waitAll :: MAct.disarm :: finActs fin)) := by
  refine hp_unique [MAct.setTerm, MAct.spawnBcast] h (by simp) ?_
  rcases fin with _ | b <;> simp [dispatchActs, finActs]

theorem hp_arm {r : List MAct} {cbs : List (String × Bool)} {fin : Option Bool}
    (h : (MAct.armDeadline :: r) <:+ mainProg cbs fin) :
    r = dispatchActs cbs ++ (MAct.waitAll :: MAct.disarm :: finActs fin) := by
  refine hp_unique [MAct.setTerm, MAct.spawnBcast, MAct.sleepGrade] h (by simp) ?_
  rcases fin with _ | b <;> simp [dispatchActs, finActs]

theorem hp_waitAll {r : List MAct} {cbs : List (String × Bool)} {fin : Option Bool}
    (h : (MAct.waitAll :: r) <:+ mainProg cbs fin) :
    r = MAct.disarm :: finActs fin := by
  have h' : (MAct.waitAll :: r) <:+
      ([MAct.setTerm, MAct.spawnBcast, MAct.sleepGrade, MAct.armDeadline] ++
        dispatchActs cbs) ++ (MAct.waitAll :: MAct.disarm :: finActs fin) := by
    simpa [mainProg, List.append_assoc] using h
  refine hp_unique _ h' ?_ ?_
  · simp [dispatchActs]
  · rcases fin with _ | b <;> simp [finActs]

theorem hp_disarm {r : List MAct} {cbs : List (String × Bool)} {fin : Option Bool}
    (h : (MAct.disarm :: r) <:+ mainProg cbs fin) :
    r = finActs fin := by
  have h' : (MAct.disarm :: r) <:+
      (([MAct.setTerm, MAct.spawnBcast, MAct.sleepGrade, MAct.armDeadline] ++
        dispatchActs cbs) ++ [MAct.waitAll]) ++ (MAct.disarm :: finActs fin) := by
    simpa [mainProg, List.append_assoc] using h
  refine hp_unique _ h' ?_ ?_
  · simp [dispatchActs]
  · rcases fin with _ | b <;> simp [finActs]

theorem hp_spawnOp {k : String} {ok : Bool} {r : List MAct}
    {cbs : List (String × Bool)} {fin : Option Bool}
    (h : (MAct.spawnOp k ok :: r) <:+ mainProg cbs fin) : MAct.waitAll ∈ r := by
  have hB : (MAct.waitAll :: MAct.disarm :: finActs fin) <:+ mainProg cbs fin := by
    rw [mainProg_decomp]
    exact List.suffix_append _ _
  rcases suffix_total h hB with hc | hc
  · exfalso
    have := hc.subset (List.mem_cons_self _ _)
    rcases fin with _ | b <;> simp [finActs] at this
  · have := hc.subset (List.mem_cons_self _ _)
    rcases List.mem_cons.1 this with he | hr
    · exact absurd he (by simp)
    · exact hr

theorem hp_runFinal {b : Bool} {r : List MAct} {cbs : List (String × Bool)}
    {fin : Option Bool} (h : (MAct.runFinal b :: r) <:+ mainProg cbs fin) :
    fin = some b ∧ r = [MAct.closeHandle] := by
  rw [mainProg_decomp₂] at h
  have h' := suffix_head_notin _ h (by simp [dispatchActs])
  rcases fin with _ | c
  · exfalso
    simp only [finActs] at h'
    rcases List.suffix_cons_iff.1 h' with he | hs
    · exact absurd he (by simp)
    · have := List.suffix_nil.1 hs
      simp at this
  · simp only [finActs] at h'
    rcases List.suffix_cons_iff.1 h' with he | hs
    · injection he with h1 h2
      have h3 := MAct.runFinal.inj h1
      exact ⟨by rw [h3], h2⟩
    · exfalso
      rcases List.suffix_cons_iff.1 hs with he2 | hs2
      · exact absurd he2 (by simp)
      · have := List.suffix_nil.1 hs2
        simp at this

theorem hp_closeHandle {r : List MAct} {cbs : List (String × Bool)} {fin : Option Bool}
    (h : (MAct.closeHandle :: r) <:+ mainProg cbs fin) : r = [] := by
  rw [mainProg_decomp₂] at h
  have h' := suffix_head_notin _ h (by simp [dispatchActs])
  rcases fin with _ | c
  · simp only [finActs] at h'
    rcases List.suffix_cons_iff.1 h' with he | hs
    · injection he
    · exfalso
      have := List.suffix_nil.1 hs
      simp at this
  · simp only [finActs] at h'
    rcases List.suffix_cons_iff.1 h' with he | hs
    · exact absurd he (by simp)
    · rcases List.suffix_cons_iff.1 hs with he2 | hs2
      · injection he2
      · exfalso
        have := List.suffix_nil.1 hs2
        simp at this

theorem hp_pair_closeHandle {h0 : MAct} {cbs : List (String × Bool)}
    (h : [h0, MAct.closeHandle] <:+ mainProg cbs (some false)) :
    h0 = MAct.runFinal false := by
  have hB : finActs (some false) <:+ mainProg cbs (some false) := by
    rw [mainProg_decomp₂]; exact List.suffix_append _ _
  simp only [finActs] at hB
  rcases suffix_total h hB with hc | hc
  · rcases List.suffix_cons_iff.1 hc with he | hs
    · injection he
    · exfalso
      rcases List.suffix_cons_iff.1 hs with he2 | hs2
      · injection he2 with _ h2
        simp at h2
      · have := List.suffix_nil.1 hs2
        simp at this
  · rcases List.suffix_cons_iff.1 hc with he | hs
    · injection he with h1 _
      exact h1.symm
    · exfalso
      rcases List.suffix_cons_iff.1 hs with he2 | hs2
      · injection he2 with _ h2
        simp at h2
      · have := List.suffix_nil.1 hs2
        simp at this

/-- Which actions count as spawning the operation named k. -/
def isSpawnOf (k : String) : MAct → Bool
  | MAct.spawnOp k' _ => k' == k
  | _ => false

/-- The master invariant of a run of the shutdown system, relating the
current state c to the trace tr produced so far from initConf. -/
structure Inv (preL : List Nat) (cbs : List (String × Bool)) (fin : Option Bool)
    (c : Config) (tr : List Ev) : Prop where
  term_iff : c.term = true ↔ Ev.setTerm ∈ tr
  exited_iff : c.exited = true ↔ Ev.deadlineFire ∈ tr
  main_suffix : c.mainP <:+ mainProg cbs fin
  bcast_iff : c.bcastP ≠ none ↔ Ev.spawnBcast ∈ tr
  mark_setTerm : Ev.setTerm ∈ tr ↔ MAct.setTerm ∉ c.mainP
  mark_sleep : Ev.sleepGrade ∈ tr ↔ MAct.sleepGrade ∉ c.mainP
  mark_spawnB : Ev.spawnBcast ∈ tr ↔ MAct.spawnBcast ∉ c.mainP
  mark_waitAll : Ev.waitAll ∈ tr ↔ MAct.waitAll ∉ c.mainP
  mark_disarm : Ev.disarm ∈ tr ↔ MAct.disarm ∉ c.mainP
  mark_runFinal : ∀ b, Ev.runFinal b ∈ tr → MAct.runFinal b ∉ c.mainP
  armed_inv : c.armed = true → Ev.disarm ∉ tr ∧ ∀ b, Ev.runFinal b ∉ tr
  disarm_armed : Ev.disarm ∈ tr → c.armed = false
  final_before : ∀ b, Ev.runFinal b ∈ tr → Before Ev.disarm (Ev.runFinal b) tr
  pending_iff : c.firePending = true ↔ Ev.timerExpire ∈ tr
  fire_expire : Ev.deadlineFire ∈ tr → Ev.timerExpire ∈ tr
  bcast_sleep : Ev.sleepGrade ∈ tr → Before Ev.spawnBcast Ev.sleepGrade tr
  close_term : ∀ i, Ev.closeListener i ∈ tr → Before Ev.setTerm (Ev.closeListener i) tr
  listeners_pre : ∀ i, i ∈ preL → i ∈ c.listeners
  listeners_src : ∀ j, j ∈ c.listeners → j ∈ preL ∨ Ev.newListener j ∈ tr
  bcast_src : ∀ l, c.bcastP = some l → ∀ j, j ∈ l →
      j ∈ preL ∨ Before (Ev.newListener j) Ev.spawnBcast tr
  close_src : ∀ j, Ev.closeListener j ∈ tr →
      j ∈ preL ∨ Before (Ev.newListener j) Ev.spawnBcast tr
  bcast_cover : ∀ l, c.bcastP = some l → ∀ i, i ∈ preL →
      i ∈ l ∨ Ev.closeListener i ∈ tr
  wait_pending : Ev.waitAll ∈ tr → c.pending = []
  pending_src : ∀ kv, kv ∈ c.pending → kv ∈ cbs
  spawn_count : ∀ k, tr.count (Ev.spawnOp k) + c.mainP.countP (isSpawnOf k) =
      (mainProg cbs fin).countP (isSpawnOf k)
  run_count : (cbs.map Prod.fst).Nodup → ∀ k ok, (k, ok) ∈ cbs →
      tr.count (Ev.opRun k ok) + c.pending.count (k, ok) = tr.count (Ev.spawnOp k)
  ch_err : fin = some false → Ev.closeHandle ∉ tr ∧ c.mainP ≠ [MAct.closeHandle]
  ch_ok : fin ≠ some false → Ev.closeHandle ∈ tr ∨ MAct.closeHandle ∈ c.mainP

theorem inv_init (preL : List Nat) (cbs : List (String × Bool)) (fin : Option Bool)
    (subs : List Nat) : Inv preL cbs fin (initConf preL cbs fin subs) [] := by
  constructor
  case term_iff => simp [initConf]
  case exited_iff => simp [initConf]
  case main_suffix => exact List.suffix_rfl
  case bcast_iff => simp [initConf]
  case mark_setTerm => simp [initConf, setTerm_mem_mainProg]
  case mark_sleep => simp [initConf, mainProg]
  case mark_spawnB => simp [initConf, mainProg]
  case mark_waitAll => simp [initConf, mainProg]
  case mark_disarm => simp [initConf, mainProg]
  case mark_runFinal => simp
  case armed_inv => simp [initConf]
  case disarm_armed => simp [initConf]
  case final_before => simp
  case pending_iff => simp [initConf]
  case fire_expire => simp
  case bcast_sleep => simp
  case close_term => simp
  case listeners_pre => simp [initConf]
  case listeners_src => intro j hj; exact Or.inl (by simpa [initConf] using hj)
  case bcast_src => simp [initConf]
  case close_src => simp
  case bcast_cover => simp [initConf]
  case wait_pending => simp
  case pending_src => simp [initConf]
  case spawn_count => intro k; simp [initConf]
  case run_count => intro _ k ok _; simp [initConf]
  case ch_err =>
      intro hf
      refine ⟨by simp, ?_⟩
      subst hf
      simp [initConf, mainProg]
  case ch_ok => intro _; exact Or.inr closeHandle_mem_mainProg

/-!  Small helpers for trace extension and map keys. -/

theorem suffix_pop {α : Type} {a : α} {r m : List α} (h : (a :: r) <:+ m) : r <:+ m :=
  (List.suffix_cons a r).trans h

theorem mem_ext {x e : Ev} {tr : List Ev} (h : x ∈ tr) : x ∈ tr ++ [e] :=
  List.mem_append_left _ h

theorem mem_ext_iff {x e : Ev} {tr : List Ev} (hne : x ≠ e) : x ∈ tr ++ [e] ↔ x ∈ tr := by
  simp [List.mem_append, hne]

theorem count_ext {a e : Ev} {tr : List Ev} (hne : a ≠ e) :
    (tr ++ [e]).count a = tr.count a := by
  rw [List.count_append,
    show List.count a [e] = 0 from List.count_eq_zero.2 (by simp [hne])]
  exact Nat.add_zero _

theorem nodup_key_unique {cbs : List (String × Bool)} (hnd : (cbs.map Prod.fst).Nodup)
    {k : String} {a b : Bool} (ha : (k, a) ∈ cbs) (hb : (k, b) ∈ cbs) : a = b := by
  induction cbs with
  | nil => simp at ha
  | cons hd tl ih =>
      simp only [List.map_cons, List.nodup_cons] at hnd
      rcases List.mem_cons.1 ha with ha1 | ha2 <;> rcases List.mem_cons.1 hb with hb1 | hb2
      · rw [← ha1] at hb1
        injection hb1 with _ h2
        exact h2.symm
      · exfalso
        exact hnd.1 (by rw [← ha1]; exact List.mem_map.2 ⟨(k, b), hb2, rfl⟩)
      · exfalso
        exact hnd.1 (by rw [← hb1]; exact List.mem_map.2 ⟨(k, a), ha2, rfl⟩)
      · exact ih hnd.2 ha2 hb2

/-- From the invariant: once the broadcast goroutine is spawned, the
isTerminating write is already in the trace. -/
theorem inv_setTerm_of_spawnB {preL : List Nat} {cbs : List (String × Bool)}
    {fin : Option Bool} {c : Config} {tr : List Ev} (I : Inv preL cbs fin c tr)
    (h : Ev.spawnBcast ∈ tr) : Ev.setTerm ∈ tr := by
  refine I.mark_setTerm.2 ?_
  intro hst
  have hT : MAct.setTerm ∉
      ([MAct.spawnBcast, MAct.sleepGrade, MAct.armDeadline] ++
        (dispatchActs cbs ++ (MAct.waitAll :: MAct.disarm :: finActs fin))) := by
    rcases fin with _ | b <;> simp [dispatchActs, finActs]
  have heq := suffix_whole_of_head_mem I.main_suffix hT hst
  have hsp : MAct.spawnBcast ∈ c.mainP := by rw [heq]; simp
  exact (I.mark_spawnB.1 h) hsp

/-!  Step preservation, per thread. -/

theorem inv_step_sub {preL : List Nat} {cbs : List (String × Bool)} {fin : Option Bool}
    {c : Config} {tr : List Ev} {j : Nat} {rest : List Nat}
    (I : Inv preL cbs fin c tr) :
    Inv preL cbs fin { c with subP := rest, listeners := c.listeners ++ [j] }
      (tr ++ [Ev.newListener j]) := by
  constructor
  case term_iff => rw [mem_ext_iff (by simp)]; exact I.term_iff
  case exited_iff => rw [mem_ext_iff (by simp)]; exact I.exited_iff
  case main_suffix => exact I.main_suffix
  case bcast_iff => rw [mem_ext_iff (by simp)]; exact I.bcast_iff
  case mark_setTerm => rw [mem_ext_iff (by simp)]; exact I.mark_setTerm
  case mark_sleep => rw [mem_ext_iff (by simp)]; exact I.mark_sleep
  case mark_spawnB => rw [mem_ext_iff (by simp)]; exact I.mark_spawnB
  case mark_waitAll => rw [mem_ext_iff (by simp)]; exact I.mark_waitAll
  case mark_disarm => rw [mem_ext_iff (by simp)]; exact I.mark_disarm
  case mark_runFinal =>
      intro b hb
      rw [mem_ext_iff (by simp)] at hb
      exact I.mark_runFinal b hb
  case armed_inv =>
      intro ha
      obtain ⟨h1, h2⟩ := I.armed_inv ha
      exact ⟨by rw [mem_ext_iff (by simp)]; exact h1,
        fun b => by rw [mem_ext_iff (by simp)]; exact h2 b⟩
  case disarm_armed =>
      intro hd
      rw [mem_ext_iff (by simp)] at hd
      exact I.disarm_armed hd
  case final_before =>
      intro b hb
      rw [mem_ext_iff (by simp)] at hb
      exact before_append (I.final_before b hb)
  case pending_iff =>
      rw [mem_ext_iff (by simp)]
      exact I.pending_iff
  case fire_expire =>
      intro hf
      rw [mem_ext_iff (by simp)] at hf
      exact mem_ext (I.fire_expire hf)
  case bcast_sleep =>
      intro hs
      rw [mem_ext_iff (by simp)] at hs
      exact before_append (I.bcast_sleep hs)
  case close_term =>
      intro i hi
      rw [mem_ext_iff (by simp)] at hi
      exact before_append (I.close_term i hi)
  case listeners_pre =>
      intro i hi
      exact List.mem_append_left _ (I.listeners_pre i hi)
  case listeners_src =>
      intro j' hj'
      rcases List.mem_append.1 hj' with h | h
      · exact (I.listeners_src j' h).imp id mem_ext
      · exact Or.inr (by simp at h; rw [h]; simp)
  case bcast_src =>
      intro l hl j' hj'
      exact (I.bcast_src l hl j' hj').imp id before_append
  case close_src =>
      intro j' hj'
      rw [mem_ext_iff (by simp)] at hj'
      exact (I.close_src j' hj').imp id before_append
  case bcast_cover =>
      intro l hl i hi
      exact (I.bcast_cover l hl i hi).imp id mem_ext
  case wait_pending =>
      intro hw
      rw [mem_ext_iff (by simp)] at hw
      exact I.wait_pending hw
  case pending_src => exact I.pending_src
  case spawn_count =>
      intro k
      rw [count_ext (by simp)]
      exact I.spawn_count k
  case run_count =>
      intro hnd k ok hk
      rw [count_ext (by simp), count_ext (by simp)]
      exact I.run_count hnd k ok hk
  case ch_err =>
      intro hf
      obtain ⟨h1, h2⟩ := I.ch_err hf
      exact ⟨by rw [mem_ext_iff (by simp)]; exact h1, h2⟩
  case ch_ok =>
      intro hf
      exact (I.ch_ok hf).imp mem_ext id

theorem inv_step_timer_expire {preL : List Nat} {cbs : List (String × Bool)}
    {fin : Option Bool} {c : Config} {tr : List Ev}
    (I : Inv preL cbs fin c tr) (_ha : c.armed = true) :
    Inv preL cbs fin { c with armed := false, firePending := true }
      (tr ++ [Ev.timerExpire]) := by
  constructor
  case term_iff => rw [mem_ext_iff (by simp)]; exact I.term_iff
  case exited_iff => rw [mem_ext_iff (by simp)]; exact I.exited_iff
  case main_suffix => exact I.main_suffix
  case bcast_iff => rw [mem_ext_iff (by simp)]; exact I.bcast_iff
  case mark_setTerm => rw [mem_ext_iff (by simp)]; exact I.mark_setTerm
  case mark_sleep => rw [mem_ext_iff (by simp)]; exact I.mark_sleep
  case mark_spawnB => rw [mem_ext_iff (by simp)]; exact I.mark_spawnB
  case mark_waitAll => rw [mem_ext_iff (by simp)]; exact I.mark_waitAll
  case mark_disarm => rw [mem_ext_iff (by simp)]; exact I.mark_disarm
  case mark_runFinal =>
      intro b hb
      rw [mem_ext_iff (by simp)] at hb
      exact I.mark_runFinal b hb
  case armed_inv =>
      intro ha2
      simp at ha2
  case disarm_armed => intro _; rfl
  case final_before =>
      intro b hb
      rw [mem_ext_iff (by simp)] at hb
      exact before_append (I.final_before b hb)
  case pending_iff =>
      constructor
      · intro _
        simp
      · intro _
        rfl
  case fire_expire =>
      intro hf
      rw [mem_ext_iff (by simp)] at hf
      exact mem_ext (I.fire_expire hf)
  case bcast_sleep =>
      intro hs
      rw [mem_ext_iff (by simp)] at hs
      exact before_append (I.bcast_sleep hs)
  case close_term =>
      intro i hi
      rw [mem_ext_iff (by simp)] at hi
      exact before_append (I.close_term i hi)
  case listeners_pre => exact I.listeners_pre
  case listeners_src =>
      intro j' hj'
      exact (I.listeners_src j' hj').imp id mem_ext
  case bcast_src =>
      intro l hl j' hj'
      exact (I.bcast_src l hl j' hj').imp id before_append
  case close_src =>
      intro j' hj'
      rw [mem_ext_iff (by simp)] at hj'
      exact (I.close_src j' hj').imp id before_append
  case bcast_cover =>
      intro l hl i hi
      exact (I.bcast_cover l hl i hi).imp id mem_ext
  case wait_pending =>
      intro hw
      rw [mem_ext_iff (by simp)] at hw
      exact I.wait_pending hw
  case pending_src => exact I.pending_src
  case spawn_count =>
      intro k
      rw [count_ext (by simp)]
      exact I.spawn_count k
  case run_count =>
      intro hnd k ok hk
      rw [count_ext (by simp), count_ext (by simp)]
      exact I.run_count hnd k ok hk
  case ch_err =>
      intro hf
      obtain ⟨h1, h2⟩ := I.ch_err hf
      exact ⟨by rw [mem_ext_iff (by simp)]; exact h1, h2⟩
  case ch_ok =>
      intro hf
      exact (I.ch_ok hf).imp mem_ext id

theorem inv_step_timer_fire {preL : List Nat} {cbs : List (String × Bool)}
    {fin : Option Bool} {c : Config} {tr : List Ev}
    (I : Inv preL cbs fin c tr) (ha : c.armed = false) (hfp : c.firePending = true) :
    Inv preL cbs fin { c with exited := true } (tr ++ [Ev.deadlineFire]) := by
  have hexp : Ev.timerExpire ∈ tr := I.pending_iff.1 hfp
  constructor
  case term_iff => rw [mem_ext_iff (by simp)]; exact I.term_iff
  case exited_iff => simp
  case main_suffix => exact I.main_suffix
  case bcast_iff => rw [mem_ext_iff (by simp)]; exact I.bcast_iff
  case mark_setTerm => rw [mem_ext_iff (by simp)]; exact I.mark_setTerm
  case mark_sleep => rw [mem_ext_iff (by simp)]; exact I.mark_sleep
  case mark_spawnB => rw [mem_ext_iff (by simp)]; exact I.mark_spawnB
  case mark_waitAll => rw [mem_ext_iff (by simp)]; exact I.mark_waitAll
  case mark_disarm => rw [mem_ext_iff (by simp)]; exact I.mark_disarm
  case mark_runFinal =>
      intro b hb
      rw [mem_ext_iff (by simp)] at hb
      exact I.mark_runFinal b hb
  case armed_inv =>
      intro ha2
      dsimp only at ha2
      rw [ha] at ha2
      exact absurd ha2 (by simp)
  case disarm_armed =>
      intro _
      exact ha
  case final_before =>
      intro b hb
      rw [mem_ext_iff (by simp)] at hb
      exact before_append (I.final_before b hb)
  case pending_iff =>
      rw [mem_ext_iff (by simp)]
      exact I.pending_iff
  case fire_expire =>
      intro _
      exact mem_ext hexp
  case bcast_sleep =>
      intro hs
      rw [mem_ext_iff (by simp)] at hs
      exact before_append (I.bcast_sleep hs)
  case close_term =>
      intro i hi
      rw [mem_ext_iff (by simp)] at hi
      exact before_append (I.close_term i hi)
  case listeners_pre => exact I.listeners_pre
  case listeners_src =>
      intro j' hj'
      exact (I.listeners_src j' hj').imp id mem_ext
  case bcast_src =>
      intro l hl j' hj'
      exact (I.bcast_src l hl j' hj').imp id before_append
  case close_src =>
      intro j' hj'
      rw [mem_ext_iff (by simp)] at hj'
      exact (I.close_src j' hj').imp id before_append
  case bcast_cover =>
      intro l hl i hi
      exact (I.bcast_cover l hl i hi).imp id mem_ext
  case wait_pending =>
      intro hw
      rw [mem_ext_iff (by simp)] at hw
      exact I.wait_pending hw
  case pending_src => exact I.pending_src
  case spawn_count =>
      intro k
      rw [count_ext (by simp)]
      exact I.spawn_count k
  case run_count =>
      intro hnd k ok hk
      rw [count_ext (by simp), count_ext (by simp)]
      exact I.run_count hnd k ok hk
  case ch_err =>
      intro hf
      obtain ⟨h1, h2⟩ := I.ch_err hf
      exact ⟨by rw [mem_ext_iff (by simp)]; exact h1, h2⟩
  case ch_ok =>
      intro hf
      exact (I.ch_ok hf).imp mem_ext id

theorem inv_step_bcast {preL : List Nat} {cbs : List (String × Bool)} {fin : Option Bool}
    {c : Config} {tr : List Ev} {i : Nat} {rest : List Nat}
    (I : Inv preL cbs fin c tr) (hb : c.bcastP = some (i :: rest)) :
    Inv preL cbs fin { c with bcastP := some rest } (tr ++ [Ev.closeListener i]) := by
  have hsb : Ev.spawnBcast ∈ tr := I.bcast_iff.1 (by simp [hb])
  have hst : Ev.setTerm ∈ tr := inv_setTerm_of_spawnB I hsb
  constructor
  case term_iff => rw [mem_ext_iff (by simp)]; exact I.term_iff
  case exited_iff => rw [mem_ext_iff (by simp)]; exact I.exited_iff
  case main_suffix => exact I.main_suffix
  case bcast_iff =>
      constructor
      · intro _; exact mem_ext hsb
      · intro _; simp
  case mark_setTerm => rw [mem_ext_iff (by simp)]; exact I.mark_setTerm
  case mark_sleep => rw [mem_ext_iff (by simp)]; exact I.mark_sleep
  case mark_spawnB => rw [mem_ext_iff (by simp)]; exact I.mark_spawnB
  case mark_waitAll => rw [mem_ext_iff (by simp)]; exact I.mark_waitAll
  case mark_disarm => rw [mem_ext_iff (by simp)]; exact I.mark_disarm
  case mark_runFinal =>
      intro b hb'
      rw [mem_ext_iff (by simp)] at hb'
      exact I.mark_runFinal b hb'
  case armed_inv =>
      intro ha
      obtain ⟨h1, h2⟩ := I.armed_inv ha
      exact ⟨by rw [mem_ext_iff (by simp)]; exact h1,
        fun b => by rw [mem_ext_iff (by simp)]; exact h2 b⟩
  case disarm_armed =>
      intro hd
      rw [mem_ext_iff (by simp)] at hd
      exact I.disarm_armed hd
  case final_before =>
      intro b hb'
      rw [mem_ext_iff (by simp)] at hb'
      exact before_append (I.final_before b hb')
  case pending_iff =>
      rw [mem_ext_iff (by simp)]
      exact I.pending_iff
  case fire_expire =>
      intro hf
      rw [mem_ext_iff (by simp)] at hf
      exact mem_ext (I.fire_expire hf)
  case bcast_sleep =>
      intro hs
      rw [mem_ext_iff (by simp)] at hs
      exact before_append (I.bcast_sleep hs)
  case close_term =>
      intro i' hi'
      rcases List.mem_append.1 hi' with h | h
      · exact before_append (I.close_term i' h)
      · simp only [List.mem_singleton] at h
        injection h with h1
        subst h1
        by_cases hmem : Ev.closeListener i' ∈ tr
        · exact before_append (I.close_term i' hmem)
        · exact before_append (before_of_not_mem hmem hst)
  case listeners_pre => exact I.listeners_pre
  case listeners_src =>
      intro j' hj'
      exact (I.listeners_src j' hj').imp id mem_ext
  case bcast_src =>
      intro l hl j' hj'
      injection hl with hl'
      subst hl'
      exact (I.bcast_src (i :: rest) hb j' (List.mem_cons_of_mem _ hj')).imp id before_append
  case close_src =>
      intro j' hj'
      rcases List.mem_append.1 hj' with h | h
      · exact (I.close_src j' h).imp id before_append
      · simp only [List.mem_singleton] at h
        injection h with h1
        have hj : j' ∈ i :: rest := by rw [h1]; exact List.mem_cons_self _ _
        exact (I.bcast_src (i :: rest) hb j' hj).imp id before_append
  case bcast_cover =>
      intro l hl i' hi'
      injection hl with hl'
      subst hl'
      rcases I.bcast_cover (i :: rest) hb i' hi' with h | h
      · rcases List.mem_cons.1 h with he | hr
        · exact Or.inr (by rw [he]; simp)
        · exact Or.inl hr
      · exact Or.inr (mem_ext h)
  case wait_pending =>
      intro hw
      rw [mem_ext_iff (by simp)] at hw
      exact I.wait_pending hw
  case pending_src => exact I.pending_src
  case spawn_count =>
      intro k
      rw [count_ext (by simp)]
      exact I.spawn_count k
  case run_count =>
      intro hnd k ok hk
      rw [count_ext (by simp), count_ext (by simp)]
      exact I.run_count hnd k ok hk
  case ch_err =>
      intro hf
      obtain ⟨h1, h2⟩ := I.ch_err hf
      exact ⟨by rw [mem_ext_iff (by simp)]; exact h1, h2⟩
  case ch_ok =>
      intro hf
      exact (I.ch_ok hf).imp mem_ext id

theorem inv_step_op {preL : List Nat} {cbs : List (String × Bool)} {fin : Option Bool}
    {c : Config} {tr : List Ev} {kv : String × Bool}
    (I : Inv preL cbs fin c tr) (hkv : kv ∈ c.pending) :
    Inv preL cbs fin { c with pending := c.pending.erase kv }
      (tr ++ [Ev.opRun kv.1 kv.2]) := by
  obtain ⟨kk, kb⟩ := kv
  simp only at hkv ⊢
  constructor
  case term_iff => rw [mem_ext_iff (by simp)]; exact I.term_iff
  case exited_iff => rw [mem_ext_iff (by simp)]; exact I.exited_iff
  case main_suffix => exact I.main_suffix
  case bcast_iff => rw [mem_ext_iff (by simp)]; exact I.bcast_iff
  case mark_setTerm => rw [mem_ext_iff (by simp)]; exact I.mark_setTerm
  case mark_sleep => rw [mem_ext_iff (by simp)]; exact I.mark_sleep
  case mark_spawnB => rw [mem_ext_iff (by simp)]; exact I.mark_spawnB
  case mark_waitAll => rw [mem_ext_iff (by simp)]; exact I.mark_waitAll
  case mark_disarm => rw [mem_ext_iff (by simp)]; exact I.mark_disarm
  case mark_runFinal =>
      intro b hb
      rw [mem_ext_iff (by simp)] at hb
      exact I.mark_runFinal b hb
  case armed_inv =>
      intro ha
      obtain ⟨h1, h2⟩ := I.armed_inv ha
      exact ⟨by rw [mem_ext_iff (by simp)]; exact h1,
        fun b => by rw [mem_ext_iff (by simp)]; exact h2 b⟩
  case disarm_armed =>
      intro hd
      rw [mem_ext_iff (by simp)] at hd
      exact I.disarm_armed hd
  case final_before =>
      intro b hb
      rw [mem_ext_iff (by simp)] at hb
      exact before_append (I.final_before b hb)
  case pending_iff =>
      rw [mem_ext_iff (by simp)]
      exact I.pending_iff
  case fire_expire =>
      intro hf
      rw [mem_ext_iff (by simp)] at hf
      exact mem_ext (I.fire_expire hf)
  case bcast_sleep =>
      intro hs
      rw [mem_ext_iff (by simp)] at hs
      exact before_append (I.bcast_sleep hs)
  case close_term =>
      intro i hi
      rw [mem_ext_iff (by simp)] at hi
      exact before_append (I.close_term i hi)
  case listeners_pre => exact I.listeners_pre
  case listeners_src =>
      intro j' hj'
      exact (I.listeners_src j' hj').imp id mem_ext
  case bcast_src =>
      intro l hl j' hj'
      exact (I.bcast_src l hl j' hj').imp id before_append
  case close_src =>
      intro j' hj'
      rw [mem_ext_iff (by simp)] at hj'
      exact (I.close_src j' hj').imp id before_append
  case bcast_cover =>
      intro l hl i hi
      exact (I.bcast_cover l hl i hi).imp id mem_ext
  case wait_pending =>
      intro hw
      rw [mem_ext_iff (by simp)] at hw
      exact absurd hkv (by rw [I.wait_pending hw]; simp)
  case pending_src =>
      intro kv' h'
      exact I.pending_src kv' (List.erase_subset _ _ h')
  case spawn_count =>
      intro k
      rw [count_ext (by simp)]
      exact I.spawn_count k
  case run_count =>
      intro hnd k ok hk
      have base := I.run_count hnd k ok hk
      rw [show List.count (Ev.spawnOp k) (tr ++ [Ev.opRun kk kb]) =
            List.count (Ev.spawnOp k) tr from count_ext (by simp)]
      by_cases heq : kk = k ∧ kb = ok
      · obtain ⟨h1, h2⟩ := heq
        subst h1; subst h2
        rw [List.count_append,
          show List.count (Ev.opRun kk kb) [Ev.opRun kk kb] = 1 from by simp,
          List.count_erase_self]
        have hpos : 0 < c.pending.count (kk, kb) := List.count_pos_iff.2 hkv
        omega
      · have hne2 : ((k, ok) : String × Bool) ≠ (kk, kb) := by
          intro hpe
          injection hpe with p1 p2
          exact heq ⟨p1.symm, p2.symm⟩
        rw [show List.count (Ev.opRun k ok) (tr ++ [Ev.opRun kk kb]) =
              List.count (Ev.opRun k ok) tr from count_ext (by
                intro he
                injection he with h1 h2
                exact heq ⟨h1.symm, h2.symm⟩),
          List.count_erase_of_ne hne2]
        exact base
  case ch_err =>
      intro hf
      obtain ⟨h1, h2⟩ := I.ch_err hf
      exact ⟨by rw [mem_ext_iff (by simp)]; exact h1, h2⟩
  case ch_ok =>
      intro hf
      exact (I.ch_ok hf).imp mem_ext id

theorem inv_main_setTerm {preL : List Nat} {cbs : List (String × Bool)} {fin : Option Bool}
    {c : Config} {tr : List Ev} {rest : List MAct}
    (I : Inv preL cbs fin c tr) (hm : c.mainP = MAct.setTerm :: rest) :
    Inv preL cbs fin { c with mainP := rest, term := true } (tr ++ [Ev.setTerm]) := by
  have hsuf : (MAct.setTerm :: rest) <:+ mainProg cbs fin := hm ▸ I.main_suffix
  have hrest := hp_setTerm hsuf
  constructor
  case term_iff => simp
  case exited_iff => rw [mem_ext_iff (by simp)]; exact I.exited_iff
  case main_suffix => exact suffix_pop hsuf
  case bcast_iff => rw [mem_ext_iff (by simp)]; exact I.bcast_iff
  case mark_setTerm =>
      constructor
      · intro _
        rw [hrest]
        rcases fin with _ | b <;> simp [dispatchActs, finActs]
      · intro _; simp
  case mark_sleep => rw [mem_ext_iff (by simp), I.mark_sleep, hm]; simp
  case mark_spawnB => rw [mem_ext_iff (by simp), I.mark_spawnB, hm]; simp
  case mark_waitAll => rw [mem_ext_iff (by simp), I.mark_waitAll, hm]; simp
  case mark_disarm => rw [mem_ext_iff (by simp), I.mark_disarm, hm]; simp
  case mark_runFinal =>
      intro b hb
      rw [mem_ext_iff (by simp)] at hb
      have hnot := I.mark_runFinal b hb
      rw [hm] at hnot
      intro hc
      exact hnot (List.mem_cons_of_mem _ hc)
  case armed_inv =>
      intro ha
      obtain ⟨h1, h2⟩ := I.armed_inv ha
      exact ⟨by rw [mem_ext_iff (by simp)]; exact h1,
        fun b => by rw [mem_ext_iff (by simp)]; exact h2 b⟩
  case disarm_armed =>
      intro hd
      rw [mem_ext_iff (by simp)] at hd
      exact I.disarm_armed hd
  case final_before =>
      intro b hb
      rw [mem_ext_iff (by simp)] at hb
      exact before_append (I.final_before b hb)
  case pending_iff =>
      rw [mem_ext_iff (by simp)]
      exact I.pending_iff
  case fire_expire =>
      intro hf
      rw [mem_ext_iff (by simp)] at hf
      exact mem_ext (I.fire_expire hf)
  case bcast_sleep =>
      intro hs
      rw [mem_ext_iff (by simp)] at hs
      exact before_append (I.bcast_sleep hs)
  case close_term =>
      intro i hi
      rw [mem_ext_iff (by simp)] at hi
      exact before_append (I.close_term i hi)
  case listeners_pre => exact I.listeners_pre
  case listeners_src => intro j' hj'; exact (I.listeners_src j' hj').imp id mem_ext
  case bcast_src => intro l hl j' hj'; exact (I.bcast_src l hl j' hj').imp id before_append
  case close_src =>
      intro j' hj'
      rw [mem_ext_iff (by simp)] at hj'
      exact (I.close_src j' hj').imp id before_append
  case bcast_cover => intro l hl i hi; exact (I.bcast_cover l hl i hi).imp id mem_ext
  case wait_pending =>
      intro hw
      rw [mem_ext_iff (by simp)] at hw
      exact I.wait_pending hw
  case pending_src => exact I.pending_src
  case spawn_count =>
      intro k
      have base := I.spawn_count k
      rw [hm, show List.countP (isSpawnOf k) (MAct.setTerm :: rest) =
          List.countP (isSpawnOf k) rest from by simp [isSpawnOf]] at base
      rw [count_ext (by simp)]
      exact base
  case run_count =>
      intro hnd k ok hk
      rw [count_ext (by simp), count_ext (by simp)]
      exact I.run_count hnd k ok hk
  case ch_err =>
      intro hf
      obtain ⟨h1, h2⟩ := I.ch_err hf
      refine ⟨by rw [mem_ext_iff (by simp)]; exact h1, ?_⟩
      intro hre
      subst hf
      have hpair : [MAct.setTerm, MAct.closeHandle] <:+ mainProg cbs (some false) := by
        rw [← hre]; exact hsuf
      have := hp_pair_closeHandle hpair
      simp at this
  case ch_ok =>
      intro hf
      rcases I.ch_ok hf with h | h
      · exact Or.inl (mem_ext h)
      · rw [hm] at h
        rcases List.mem_cons.1 h with he | hr
        · exact absurd he (by simp)
        · exact Or.inr hr

theorem inv_main_spawnB {preL : List Nat} {cbs : List (String × Bool)} {fin : Option Bool}
    {c : Config} {tr : List Ev} {rest : List MAct}
    (I : Inv preL cbs fin c tr) (hm : c.mainP = MAct.spawnBcast :: rest) :
    Inv preL cbs fin { c with mainP := rest, bcastP := some c.listeners }
      (tr ++ [Ev.spawnBcast]) := by
  have hsuf : (MAct.spawnBcast :: rest) <:+ mainProg cbs fin := hm ▸ I.main_suffix
  have hrest := hp_spawnB hsuf
  have hnotin : Ev.spawnBcast ∉ tr := by
    intro hsp
    exact (I.mark_spawnB.1 hsp) (by rw [hm]; exact List.mem_cons_self _ _)
  have hstr : MAct.setTerm ∉ rest := by
    rw [hrest]; rcases fin with _ | b <;> simp [dispatchActs, finActs]
  have hst : Ev.setTerm ∈ tr := I.mark_setTerm.2 (by rw [hm]; simp [hstr])
  constructor
  case term_iff => rw [mem_ext_iff (by simp)]; exact I.term_iff
  case exited_iff => rw [mem_ext_iff (by simp)]; exact I.exited_iff
  case main_suffix => exact suffix_pop hsuf
  case bcast_iff =>
      constructor
      · intro _; simp
      · intro _; simp
  case mark_setTerm =>
      rw [mem_ext_iff (by simp)]
      constructor
      · intro _; simp [hstr]
      · intro _; exact hst
  case mark_sleep => rw [mem_ext_iff (by simp), I.mark_sleep, hm]; simp
  case mark_spawnB =>
      constructor
      · intro _
        rw [hrest]
        rcases fin with _ | b <;> simp [dispatchActs, finActs]
      · intro _; simp
  case mark_waitAll => rw [mem_ext_iff (by simp), I.mark_waitAll, hm]; simp
  case mark_disarm => rw [mem_ext_iff (by simp), I.mark_disarm, hm]; simp
  case mark_runFinal =>
      intro b hb
      rw [mem_ext_iff (by simp)] at hb
      have hnot := I.mark_runFinal b hb
      rw [hm] at hnot
      intro hc
      exact hnot (List.mem_cons_of_mem _ hc)
  case armed_inv =>
      intro ha
      obtain ⟨h1, h2⟩ := I.armed_inv ha
      exact ⟨by rw [mem_ext_iff (by simp)]; exact h1,
        fun b => by rw [mem_ext_iff (by simp)]; exact h2 b⟩
  case disarm_armed =>
      intro hd
      rw [mem_ext_iff (by simp)] at hd
      exact I.disarm_armed hd
  case final_before =>
      intro b hb
      rw [mem_ext_iff (by simp)] at hb
      exact before_append (I.final_before b hb)
  case pending_iff =>
      rw [mem_ext_iff (by simp)]
      exact I.pending_iff
  case fire_expire =>
      intro hf
      rw [mem_ext_iff (by simp)] at hf
      exact mem_ext (I.fire_expire hf)
  case bcast_sleep =>
      intro hs
      rw [mem_ext_iff (by simp)] at hs
      exact before_append (I.bcast_sleep hs)
  case close_term =>
      intro i hi
      rw [mem_ext_iff (by simp)] at hi
      exact before_append (I.close_term i hi)
  case listeners_pre => exact I.listeners_pre
  case listeners_src => intro j' hj'; exact (I.listeners_src j' hj').imp id mem_ext
  case bcast_src =>
      intro l hl j' hj'
      injection hl with hl'
      subst hl'
      rcases I.listeners_src j' hj' with h | h
      · exact Or.inl h
      · exact Or.inr (before_append (before_of_not_mem hnotin h))
  case close_src =>
      intro j' hj'
      rw [mem_ext_iff (by simp)] at hj'
      exact (I.close_src j' hj').imp id before_append
  case bcast_cover =>
      intro l hl i hi
      injection hl with hl'
      subst hl'
      exact Or.inl (I.listeners_pre i hi)
  case wait_pending =>
      intro hw
      rw [mem_ext_iff (by simp)] at hw
      exact I.wait_pending hw
  case pending_src => exact I.pending_src
  case spawn_count =>
      intro k
      have base := I.spawn_count k
      rw [hm, show List.countP (isSpawnOf k) (MAct.spawnBcast :: rest) =
          List.countP (isSpawnOf k) rest from by simp [isSpawnOf]] at base
      rw [count_ext (by simp)]
      exact base
  case run_count =>
      intro hnd k ok hk
      rw [count_ext (by simp), count_ext (by simp)]
      exact I.run_count hnd k ok hk
  case ch_err =>
      intro hf
      obtain ⟨h1, h2⟩ := I.ch_err hf
      refine ⟨by rw [mem_ext_iff (by simp)]; exact h1, ?_⟩
      intro hre
      subst hf
      have hpair : [MAct.spawnBcast, MAct.closeHandle] <:+ mainProg cbs (some false) := by
        rw [← hre]; exact hsuf
      have := hp_pair_closeHandle hpair
      simp at this
  case ch_ok =>
      intro hf
      rcases I.ch_ok hf with h | h
      · exact Or.inl (mem_ext h)
      · rw [hm] at h
        rcases List.mem_cons.1 h with he | hr
        · exact absurd he (by simp)
        · exact Or.inr hr

theorem inv_main_sleep {preL : List Nat} {cbs : List (String × Bool)} {fin : Option Bool}
    {c : Config} {tr : List Ev} {rest : List MAct}
    (I : Inv preL cbs fin c tr) (hm : c.mainP = MAct.sleepGrade :: rest) :
    Inv preL cbs fin { c with mainP := rest } (tr ++ [Ev.sleepGrade]) := by
  have hsuf : (MAct.sleepGrade :: rest) <:+ mainProg cbs fin := hm ▸ I.main_suffix
  have hrest := hp_sleep hsuf
  have hspbr : MAct.spawnBcast ∉ rest := by
    rw [hrest]; rcases fin with _ | b <;> simp [dispatchActs, finActs]
  have hspB : Ev.spawnBcast ∈ tr := I.mark_spawnB.2 (by rw [hm]; simp [hspbr])
  have hslnotin : Ev.sleepGrade ∉ tr := fun hsl =>
    (I.mark_sleep.1 hsl) (by rw [hm]; exact List.mem_cons_self _ _)
  constructor
  case term_iff => rw [mem_ext_iff (by simp)]; exact I.term_iff
  case exited_iff => rw [mem_ext_iff (by simp)]; exact I.exited_iff
  case main_suffix => exact suffix_pop hsuf
  case bcast_iff => rw [mem_ext_iff (by simp)]; exact I.bcast_iff
  case mark_setTerm => rw [mem_ext_iff (by simp), I.mark_setTerm, hm]; simp
  case mark_sleep =>
      constructor
      · intro _
        rw [hrest]
        rcases fin with _ | b <;> simp [dispatchActs, finActs]
      · intro _; simp
  case mark_spawnB => rw [mem_ext_iff (by simp), I.mark_spawnB, hm]; simp
  case mark_waitAll => rw [mem_ext_iff (by simp), I.mark_waitAll, hm]; simp
  case mark_disarm => rw [mem_ext_iff (by simp), I.mark_disarm, hm]; simp
  case mark_runFinal =>
      intro b hb
      rw [mem_ext_iff (by simp)] at hb
      have hnot := I.mark_runFinal b hb
      rw [hm] at hnot
      intro hc
      exact hnot (List.mem_cons_of_mem _ hc)
  case armed_inv =>
      intro ha
      obtain ⟨h1, h2⟩ := I.armed_inv ha
      exact ⟨by rw [mem_ext_iff (by simp)]; exact h1,
        fun b => by rw [mem_ext_iff (by simp)]; exact h2 b⟩
  case disarm_armed =>
      intro hd
      rw [mem_ext_iff (by simp)] at hd
      exact I.disarm_armed hd
  case final_before =>
      intro b hb
      rw [mem_ext_iff (by simp)] at hb
      exact before_append (I.final_before b hb)
  case pending_iff =>
      rw [mem_ext_iff (by simp)]
      exact I.pending_iff
  case fire_expire =>
      intro hf
      rw [mem_ext_iff (by simp)] at hf
      exact mem_ext (I.fire_expire hf)
  case bcast_sleep =>
      intro _
      exact before_append (before_of_not_mem hslnotin hspB)
  case close_term =>
      intro i hi
      rw [mem_ext_iff (by simp)] at hi
      exact before_append (I.close_term i hi)
  case listeners_pre => exact I.listeners_pre
  case listeners_src => intro j' hj'; exact (I.listeners_src j' hj').imp id mem_ext
  case bcast_src => intro l hl j' hj'; exact (I.bcast_src l hl j' hj').imp id before_append
  case close_src =>
      intro j' hj'
      rw [mem_ext_iff (by simp)] at hj'
      exact (I.close_src j' hj').imp id before_append
  case bcast_cover => intro l hl i hi; exact (I.bcast_cover l hl i hi).imp id mem_ext
  case wait_pending =>
      intro hw
      rw [mem_ext_iff (by simp)] at hw
      exact I.wait_pending hw
  case pending_src => exact I.pending_src
  case spawn_count =>
      intro k
      have base := I.spawn_count k
      rw [hm, show List.countP (isSpawnOf k) (MAct.sleepGrade :: rest) =
          List.countP (isSpawnOf k) rest from by simp [isSpawnOf]] at base
      rw [count_ext (by simp)]
      exact base
  case run_count =>
      intro hnd k ok hk
      rw [count_ext (by simp), count_ext (by simp)]
      exact I.run_count hnd k ok hk
  case ch_err =>
      intro hf
      obtain ⟨h1, h2⟩ := I.ch_err hf
      refine ⟨by rw [mem_ext_iff (by simp)]; exact h1, ?_⟩
      intro hre
      subst hf
      have hpair : [MAct.sleepGrade, MAct.closeHandle] <:+ mainProg cbs (some false) := by
        rw [← hre]; exact hsuf
      have := hp_pair_closeHandle hpair
      simp at this
  case ch_ok =>
      intro hf
      rcases I.ch_ok hf with h | h
      · exact Or.inl (mem_ext h)
      · rw [hm] at h
        rcases List.mem_cons.1 h with he | hr
        · exact absurd he (by simp)
        · exact Or.inr hr

theorem inv_main_arm {preL : List Nat} {cbs : List (String × Bool)} {fin : Option Bool}
    {c : Config} {tr : List Ev} {rest : List MAct}
    (I : Inv preL cbs fin c tr) (hm : c.mainP = MAct.armDeadline :: rest) :
    Inv preL cbs fin { c with mainP := rest, armed := true } (tr ++ [Ev.armDeadline]) := by
  have hsuf : (MAct.armDeadline :: rest) <:+ mainProg cbs fin := hm ▸ I.main_suffix
  have hrest := hp_arm hsuf
  have hdisarmrest : MAct.disarm ∈ rest := by rw [hrest]; simp
  have hdnotin : Ev.disarm ∉ tr := fun hd =>
    (I.mark_disarm.1 hd) (by rw [hm]; exact List.mem_cons_of_mem _ hdisarmrest)
  constructor
  case term_iff => rw [mem_ext_iff (by simp)]; exact I.term_iff
  case exited_iff => rw [mem_ext_iff (by simp)]; exact I.exited_iff
  case main_suffix => exact suffix_pop hsuf
  case bcast_iff => rw [mem_ext_iff (by simp)]; exact I.bcast_iff
  case mark_setTerm => rw [mem_ext_iff (by simp), I.mark_setTerm, hm]; simp
  case mark_sleep => rw [mem_ext_iff (by simp), I.mark_sleep, hm]; simp
  case mark_spawnB => rw [mem_ext_iff (by simp), I.mark_spawnB, hm]; simp
  case mark_waitAll => rw [mem_ext_iff (by simp), I.mark_waitAll, hm]; simp
  case mark_disarm => rw [mem_ext_iff (by simp), I.mark_disarm, hm]; simp
  case mark_runFinal =>
      intro b hb
      rw [mem_ext_iff (by simp)] at hb
      have hnot := I.mark_runFinal b hb
      rw [hm] at hnot
      intro hc
      exact hnot (List.mem_cons_of_mem _ hc)
  case armed_inv =>
      intro _
      refine ⟨by rw [mem_ext_iff (by simp)]; exact hdnotin, ?_⟩
      intro b
      rw [mem_ext_iff (by simp)]
      intro hrf
      exact hdnotin (before_mem (I.final_before b hrf))
  case disarm_armed =>
      intro hd
      rw [mem_ext_iff (by simp)] at hd
      exact absurd hd hdnotin
  case final_before =>
      intro b hb
      rw [mem_ext_iff (by simp)] at hb
      exact before_append (I.final_before b hb)
  case pending_iff =>
      rw [mem_ext_iff (by simp)]
      exact I.pending_iff
  case fire_expire =>
      intro hf
      rw [mem_ext_iff (by simp)] at hf
      exact mem_ext (I.fire_expire hf)
  case bcast_sleep =>
      intro hs
      rw [mem_ext_iff (by simp)] at hs
      exact before_append (I.bcast_sleep hs)
  case close_term =>
      intro i hi
      rw [mem_ext_iff (by simp)] at hi
      exact before_append (I.close_term i hi)
  case listeners_pre => exact I.listeners_pre
  case listeners_src => intro j' hj'; exact (I.listeners_src j' hj').imp id mem_ext
  case bcast_src => intro l hl j' hj'; exact (I.bcast_src l hl j' hj').imp id before_append
  case close_src =>
      intro j' hj'
      rw [mem_ext_iff (by simp)] at hj'
      exact (I.close_src j' hj').imp id before_append
  case bcast_cover => intro l hl i hi; exact (I.bcast_cover l hl i hi).imp id mem_ext
  case wait_pending =>
      intro hw
      rw [mem_ext_iff (by simp)] at hw
      exact I.wait_pending hw
  case pending_src => exact I.pending_src
  case spawn_count =>
      intro k
      have base := I.spawn_count k
      rw [hm, show List.countP (isSpawnOf k) (MAct.armDeadline :: rest) =
          List.countP (isSpawnOf k) rest from by simp [isSpawnOf]] at base
      rw [count_ext (by simp)]
      exact base
  case run_count =>
      intro hnd k ok hk
      rw [count_ext (by simp), count_ext (by simp)]
      exact I.run_count hnd k ok hk
  case ch_err =>
      intro hf
      obtain ⟨h1, h2⟩ := I.ch_err hf
      refine ⟨by rw [mem_ext_iff (by simp)]; exact h1, ?_⟩
      intro hre
      subst hf
      have hpair : [MAct.armDeadline, MAct.closeHandle] <:+ mainProg cbs (some false) := by
        rw [← hre]; exact hsuf
      have := hp_pair_closeHandle hpair
      simp at this
  case ch_ok =>
      intro hf
      rcases I.ch_ok hf with h | h
      · exact Or.inl (mem_ext h)
      · rw [hm] at h
        rcases List.mem_cons.1 h with he | hr
        · exact absurd he (by simp)
        · exact Or.inr hr

theorem inv_main_spawnOp {preL : List Nat} {cbs : List (String × Bool)} {fin : Option Bool}
    {c : Config} {tr : List Ev} {rest : List MAct} {ka : String} {oa : Bool}
    (I : Inv preL cbs fin c tr) (hm : c.mainP = MAct.spawnOp ka oa :: rest) :
    Inv preL cbs fin { c with mainP := rest, pending := c.pending ++ [(ka, oa)] }
      (tr ++ [Ev.spawnOp ka]) := by
  have hsuf : (MAct.spawnOp ka oa :: rest) <:+ mainProg cbs fin := hm ▸ I.main_suffix
  have hwA : MAct.waitAll ∈ rest := hp_spawnOp hsuf
  have hwnotin : Ev.waitAll ∉ tr := fun hw =>
    (I.mark_waitAll.1 hw) (by rw [hm]; exact List.mem_cons_of_mem _ hwA)
  have hmem : (ka, oa) ∈ cbs :=
    spawn_mem_mainProg (hsuf.subset (List.mem_cons_self _ _))
  constructor
  case term_iff => rw [mem_ext_iff (by simp)]; exact I.term_iff
  case exited_iff => rw [mem_ext_iff (by simp)]; exact I.exited_iff
  case main_suffix => exact suffix_pop hsuf
  case bcast_iff => rw [mem_ext_iff (by simp)]; exact I.bcast_iff
  case mark_setTerm => rw [mem_ext_iff (by simp), I.mark_setTerm, hm]; simp
  case mark_sleep => rw [mem_ext_iff (by simp), I.mark_sleep, hm]; simp
  case mark_spawnB => rw [mem_ext_iff (by simp), I.mark_spawnB, hm]; simp
  case mark_waitAll => rw [mem_ext_iff (by simp), I.mark_waitAll, hm]; simp
  case mark_disarm => rw [mem_ext_iff (by simp), I.mark_disarm, hm]; simp
  case mark_runFinal =>
      intro b hb
      rw [mem_ext_iff (by simp)] at hb
      have hnot := I.mark_runFinal b hb
      rw [hm] at hnot
      intro hc
      exact hnot (List.mem_cons_of_mem _ hc)
  case armed_inv =>
      intro ha
      obtain ⟨h1, h2⟩ := I.armed_inv ha
      exact ⟨by rw [mem_ext_iff (by simp)]; exact h1,
        fun b => by rw [mem_ext_iff (by simp)]; exact h2 b⟩
  case disarm_armed =>
      intro hd
      rw [mem_ext_iff (by simp)] at hd
      exact I.disarm_armed hd
  case final_before =>
      intro b hb
      rw [mem_ext_iff (by simp)] at hb
      exact before_append (I.final_before b hb)
  case pending_iff =>
      rw [mem_ext_iff (by simp)]
      exact I.pending_iff
  case fire_expire =>
      intro hf
      rw [mem_ext_iff (by simp)] at hf
      exact mem_ext (I.fire_expire hf)
  case bcast_sleep =>
      intro hs
      rw [mem_ext_iff (by simp)] at hs
      exact before_append (I.bcast_sleep hs)
  case close_term =>
      intro i hi
      rw [mem_ext_iff (by simp)] at hi
      exact before_append (I.close_term i hi)
  case listeners_pre => exact I.listeners_pre
  case listeners_src => intro j' hj'; exact (I.listeners_src j' hj').imp id mem_ext
  case bcast_src => intro l hl j' hj'; exact (I.bcast_src l hl j' hj').imp id before_append
  case close_src =>
      intro j' hj'
      rw [mem_ext_iff (by simp)] at hj'
      exact (I.close_src j' hj').imp id before_append
  case bcast_cover => intro l hl i hi; exact (I.bcast_cover l hl i hi).imp id mem_ext
  case wait_pending =>
      intro hw
      rw [mem_ext_iff (by simp)] at hw
      exact absurd hw hwnotin
  case pending_src =>
      intro kv h'
      rcases List.mem_append.1 h' with h | h
      · exact I.pending_src kv h
      · simp only [List.mem_singleton] at h
        rw [h]
        exact hmem
  case spawn_count =>
      intro k
      dsimp only
      have base := I.spawn_count k
      rw [hm] at base
      by_cases hka : ka = k
      · subst hka
        rw [show List.countP (isSpawnOf ka) (MAct.spawnOp ka oa :: rest) =
            List.countP (isSpawnOf ka) rest + 1 from by simp [isSpawnOf]] at base
        rw [List.count_append,
          show List.count (Ev.spawnOp ka) [Ev.spawnOp ka] = 1 from by simp]
        omega
      · rw [show List.countP (isSpawnOf k) (MAct.spawnOp ka oa :: rest) =
            List.countP (isSpawnOf k) rest from by simp [isSpawnOf, hka]] at base
        rw [count_ext (by intro he; exact hka (Ev.spawnOp.inj he).symm)]
        exact base
  case run_count =>
      intro hnd k ok hk
      dsimp only
      have base := I.run_count hnd k ok hk
      rw [show List.count (Ev.opRun k ok) (tr ++ [Ev.spawnOp ka]) =
          List.count (Ev.opRun k ok) tr from count_ext (by simp)]
      by_cases hka : ka = k
      · subst hka
        have hoa : oa = ok := nodup_key_unique hnd hmem hk
        subst hoa
        rw [List.count_append,
          show List.count ((ka, oa) : String × Bool) [(ka, oa)] = 1 from by simp,
          List.count_append,
          show List.count (Ev.spawnOp ka) [Ev.spawnOp ka] = 1 from by simp]
        omega
      · rw [show List.count ((k, ok) : String × Bool) (c.pending ++ [(ka, oa)]) =
            List.count ((k, ok) : String × Bool) c.pending from by
              rw [List.count_append, show List.count ((k, ok) : String × Bool) [(ka, oa)] = 0 from
                List.count_eq_zero.2 (by
                  simp only [List.mem_singleton]
                  intro hpe
                  injection hpe with p1 _
                  exact hka p1.symm)]
              exact Nat.add_zero _,
          show List.count (Ev.spawnOp k) (tr ++ [Ev.spawnOp ka]) =
            List.count (Ev.spawnOp k) tr from
              count_ext (by intro he; exact hka (Ev.spawnOp.inj he).symm)]
        exact base
  case ch_err =>
      intro hf
      obtain ⟨h1, h2⟩ := I.ch_err hf
      refine ⟨by rw [mem_ext_iff (by simp)]; exact h1, ?_⟩
      intro hre
      subst hf
      have hpair : [MAct.spawnOp ka oa, MAct.closeHandle] <:+ mainProg cbs (some false) := by
        rw [← hre]; exact hsuf
      have := hp_pair_closeHandle hpair
      simp at this
  case ch_ok =>
      intro hf
      rcases I.ch_ok hf with h | h
      · exact Or.inl (mem_ext h)
      · rw [hm] at h
        rcases List.mem_cons.1 h with he | hr
        · exact absurd he (by simp)
        · exact Or.inr hr

theorem inv_main_waitAll {preL : List Nat} {cbs : List (String × Bool)} {fin : Option Bool}
    {c : Config} {tr : List Ev} {rest : List MAct}
    (I : Inv preL cbs fin c tr) (hm : c.mainP = MAct.waitAll :: rest)
    (hpend : c.pending = []) :
    Inv preL cbs fin { c with mainP := rest } (tr ++ [Ev.waitAll]) := by
  have hsuf : (MAct.waitAll :: rest) <:+ mainProg cbs fin := hm ▸ I.main_suffix
  have hrest := hp_waitAll hsuf
  constructor
  case term_iff => rw [mem_ext_iff (by simp)]; exact I.term_iff
  case exited_iff => rw [mem_ext_iff (by simp)]; exact I.exited_iff
  case main_suffix => exact suffix_pop hsuf
  case bcast_iff => rw [mem_ext_iff (by simp)]; exact I.bcast_iff
  case mark_setTerm => rw [mem_ext_iff (by simp), I.mark_setTerm, hm]; simp
  case mark_sleep => rw [mem_ext_iff (by simp), I.mark_sleep, hm]; simp
  case mark_spawnB => rw [mem_ext_iff (by simp), I.mark_spawnB, hm]; simp
  case mark_waitAll =>
      constructor
      · intro _
        rw [hrest]
        rcases fin with _ | b <;> simp [finActs]
      · intro _; simp
  case mark_disarm => rw [mem_ext_iff (by simp), I.mark_disarm, hm]; simp
  case mark_runFinal =>
      intro b hb
      rw [mem_ext_iff (by simp)] at hb
      have hnot := I.mark_runFinal b hb
      rw [hm] at hnot
      intro hc
      exact hnot (List.mem_cons_of_mem _ hc)
  case armed_inv =>
      intro ha
      obtain ⟨h1, h2⟩ := I.armed_inv ha
      exact ⟨by rw [mem_ext_iff (by simp)]; exact h1,
        fun b => by rw [mem_ext_iff (by simp)]; exact h2 b⟩
  case disarm_armed =>
      intro hd
      rw [mem_ext_iff (by simp)] at hd
      exact I.disarm_armed hd
  case final_before =>
      intro b hb
      rw [mem_ext_iff (by simp)] at hb
      exact before_append (I.final_before b hb)
  case pending_iff =>
      rw [mem_ext_iff (by simp)]
      exact I.pending_iff
  case fire_expire =>
      intro hf
      rw [mem_ext_iff (by simp)] at hf
      exact mem_ext (I.fire_expire hf)
  case bcast_sleep =>
      intro hs
      rw [mem_ext_iff (by simp)] at hs
      exact before_append (I.bcast_sleep hs)
  case close_term =>
      intro i hi
      rw [mem_ext_iff (by simp)] at hi
      exact before_append (I.close_term i hi)
  case listeners_pre => exact I.listeners_pre
  case listeners_src => intro j' hj'; exact (I.listeners_src j' hj').imp id mem_ext
  case bcast_src => intro l hl j' hj'; exact (I.bcast_src l hl j' hj').imp id before_append
  case close_src =>
      intro j' hj'
      rw [mem_ext_iff (by simp)] at hj'
      exact (I.close_src j' hj').imp id before_append
  case bcast_cover => intro l hl i hi; exact (I.bcast_cover l hl i hi).imp id mem_ext
  case wait_pending => intro _; exact hpend
  case pending_src => exact I.pending_src
  case spawn_count =>
      intro k
      have base := I.spawn_count k
      rw [hm, show List.countP (isSpawnOf k) (MAct.waitAll :: rest) =
          List.countP (isSpawnOf k) rest from by simp [isSpawnOf]] at base
      rw [count_ext (by simp)]
      exact base
  case run_count =>
      intro hnd k ok hk
      rw [count_ext (by simp), count_ext (by simp)]
      exact I.run_count hnd k ok hk
  case ch_err =>
      intro hf
      obtain ⟨h1, h2⟩ := I.ch_err hf
      refine ⟨by rw [mem_ext_iff (by simp)]; exact h1, ?_⟩
      intro hre
      subst hf
      have hpair : [MAct.waitAll, MAct.closeHandle] <:+ mainProg cbs (some false) := by
        rw [← hre]; exact hsuf
      have := hp_pair_closeHandle hpair
      simp at this
  case ch_ok =>
      intro hf
      rcases I.ch_ok hf with h | h
      · exact Or.inl (mem_ext h)
      · rw [hm] at h
        rcases List.mem_cons.1 h with he | hr
        · exact absurd he (by simp)
        · exact Or.inr hr

theorem inv_main_disarm {preL : List Nat} {cbs : List (String × Bool)} {fin : Option Bool}
    {c : Config} {tr : List Ev} {rest : List MAct}
    (I : Inv preL cbs fin c tr) (hm : c.mainP = MAct.disarm :: rest) :
    Inv preL cbs fin { c with mainP := rest, armed := false } (tr ++ [Ev.disarm]) := by
  have hsuf : (MAct.disarm :: rest) <:+ mainProg cbs fin := hm ▸ I.main_suffix
  have hrest := hp_disarm hsuf
  constructor
  case term_iff => rw [mem_ext_iff (by simp)]; exact I.term_iff
  case exited_iff => rw [mem_ext_iff (by simp)]; exact I.exited_iff
  case main_suffix => exact suffix_pop hsuf
  case bcast_iff => rw [mem_ext_iff (by simp)]; exact I.bcast_iff
  case mark_setTerm => rw [mem_ext_iff (by simp), I.mark_setTerm, hm]; simp
  case mark_sleep => rw [mem_ext_iff (by simp), I.mark_sleep, hm]; simp
  case mark_spawnB => rw [mem_ext_iff (by simp), I.mark_spawnB, hm]; simp
  case mark_waitAll => rw [mem_ext_iff (by simp), I.mark_waitAll, hm]; simp
  case mark_disarm =>
      constructor
      · intro _
        rw [hrest]
        rcases fin with _ | b <;> simp [finActs]
      · intro _; simp
  case mark_runFinal =>
      intro b hb
      rw [mem_ext_iff (by simp)] at hb
      have hnot := I.mark_runFinal b hb
      rw [hm] at hnot
      intro hc
      exact hnot (List.mem_cons_of_mem _ hc)
  case armed_inv =>
      intro ha
      simp at ha
  case disarm_armed => intro _; rfl
  case final_before =>
      intro b hb
      rw [mem_ext_iff (by simp)] at hb
      exact before_append (I.final_before b hb)
  case pending_iff =>
      rw [mem_ext_iff (by simp)]
      exact I.pending_iff
  case fire_expire =>
      intro hf
      rw [mem_ext_iff (by simp)] at hf
      exact mem_ext (I.fire_expire hf)
  case bcast_sleep =>
      intro hs
      rw [mem_ext_iff (by simp)] at hs
      exact before_append (I.bcast_sleep hs)
  case close_term =>
      intro i hi
      rw [mem_ext_iff (by simp)] at hi
      exact before_append (I.close_term i hi)
  case listeners_pre => exact I.listeners_pre
  case listeners_src => intro j' hj'; exact (I.listeners_src j' hj').imp id mem_ext
  case bcast_src => intro l hl j' hj'; exact (I.bcast_src l hl j' hj').imp id before_append
  case close_src =>
      intro j' hj'
      rw [mem_ext_iff (by simp)] at hj'
      exact (I.close_src j' hj').imp id before_append
  case bcast_cover => intro l hl i hi; exact (I.bcast_cover l hl i hi).imp id mem_ext
  case wait_pending =>
      intro hw
      rw [mem_ext_iff (by simp)] at hw
      exact I.wait_pending hw
  case pending_src => exact I.pending_src
  case spawn_count =>
      intro k
      have base := I.spawn_count k
      rw [hm, show List.countP (isSpawnOf k) (MAct.disarm :: rest) =
          List.countP (isSpawnOf k) rest from by simp [isSpawnOf]] at base
      rw [count_ext (by simp)]
      exact base
  case run_count =>
      intro hnd k ok hk
      rw [count_ext (by simp), count_ext (by simp)]
      exact I.run_count hnd k ok hk
  case ch_err =>
      intro hf
      obtain ⟨h1, h2⟩ := I.ch_err hf
      refine ⟨by rw [mem_ext_iff (by simp)]; exact h1, ?_⟩
      intro hre
      subst hf
      have hpair : [MAct.disarm, MAct.closeHandle] <:+ mainProg cbs (some false) := by
        rw [← hre]; exact hsuf
      have := hp_pair_closeHandle hpair
      simp at this
  case ch_ok =>
      intro hf
      rcases I.ch_ok hf with h | h
      · exact Or.inl (mem_ext h)
      · rw [hm] at h
        rcases List.mem_cons.1 h with he | hr
        · exact absurd he (by simp)
        · exact Or.inr hr

theorem inv_main_runFinalT {preL : List Nat} {cbs : List (String × Bool)} {fin : Option Bool}
    {c : Config} {tr : List Ev} {rest : List MAct}
    (I : Inv preL cbs fin c tr) (hm : c.mainP = MAct.runFinal true :: rest) :
    Inv preL cbs fin { c with mainP := rest } (tr ++ [Ev.runFinal true]) := by
  have hsuf : (MAct.runFinal true :: rest) <:+ mainProg cbs fin := hm ▸ I.main_suffix
  obtain ⟨hfin, hrest⟩ := hp_runFinal hsuf
  have hmp : c.mainP = [MAct.runFinal true, MAct.closeHandle] := by rw [hm, hrest]
  have hdtr : Ev.disarm ∈ tr := I.mark_disarm.2 (by rw [hmp]; simp)
  have hstT : Ev.setTerm ∈ tr := I.mark_setTerm.2 (by rw [hmp]; simp)
  have hslT : Ev.sleepGrade ∈ tr := I.mark_sleep.2 (by rw [hmp]; simp)
  have hsbT : Ev.spawnBcast ∈ tr := I.mark_spawnB.2 (by rw [hmp]; simp)
  have hwaT : Ev.waitAll ∈ tr := I.mark_waitAll.2 (by rw [hmp]; simp)
  have hrfnotin : Ev.runFinal true ∉ tr := fun hr =>
    (I.mark_runFinal true hr) (by rw [hm]; exact List.mem_cons_self _ _)
  constructor
  case term_iff => rw [mem_ext_iff (by simp)]; exact I.term_iff
  case exited_iff => rw [mem_ext_iff (by simp)]; exact I.exited_iff
  case main_suffix => exact suffix_pop hsuf
  case bcast_iff => rw [mem_ext_iff (by simp)]; exact I.bcast_iff
  case mark_setTerm =>
      constructor
      · intro _; rw [hrest]; simp
      · intro _; exact mem_ext hstT
  case mark_sleep =>
      constructor
      · intro _; rw [hrest]; simp
      · intro _; exact mem_ext hslT
  case mark_spawnB =>
      constructor
      · intro _; rw [hrest]; simp
      · intro _; exact mem_ext hsbT
  case mark_waitAll =>
      constructor
      · intro _; rw [hrest]; simp
      · intro _; exact mem_ext hwaT
  case mark_disarm =>
      constructor
      · intro _; rw [hrest]; simp
      · intro _; exact mem_ext hdtr
  case mark_runFinal =>
      intro b hb
      rw [hrest]
      simp
  case armed_inv =>
      intro ha
      have hfa := I.disarm_armed hdtr
      dsimp only at ha
      rw [hfa] at ha
      exact absurd ha (by simp)
  case disarm_armed =>
      intro _
      dsimp only
      exact I.disarm_armed hdtr
  case final_before =>
      intro b hb
      rcases List.mem_append.1 hb with h | h
      · exact before_append (I.final_before b h)
      · simp only [List.mem_singleton] at h
        injection h with h1
        subst h1
        exact before_append (before_of_not_mem hrfnotin hdtr)
  case pending_iff =>
      rw [mem_ext_iff (by simp)]
      exact I.pending_iff
  case fire_expire =>
      intro hf
      rw [mem_ext_iff (by simp)] at hf
      exact mem_ext (I.fire_expire hf)
  case bcast_sleep =>
      intro hs
      rw [mem_ext_iff (by simp)] at hs
      exact before_append (I.bcast_sleep hs)
  case close_term =>
      intro i hi
      rw [mem_ext_iff (by simp)] at hi
      exact before_append (I.close_term i hi)
  case listeners_pre => exact I.listeners_pre
  case listeners_src => intro j' hj'; exact (I.listeners_src j' hj').imp id mem_ext
  case bcast_src => intro l hl j' hj'; exact (I.bcast_src l hl j' hj').imp id before_append
  case close_src =>
      intro j' hj'
      rw [mem_ext_iff (by simp)] at hj'
      exact (I.close_src j' hj').imp id before_append
  case bcast_cover => intro l hl i hi; exact (I.bcast_cover l hl i hi).imp id mem_ext
  case wait_pending =>
      intro hw
      rw [mem_ext_iff (by simp)] at hw
      exact I.wait_pending hw
  case pending_src => exact I.pending_src
  case spawn_count =>
      intro k
      have base := I.spawn_count k
      rw [hm, show List.countP (isSpawnOf k) (MAct.runFinal true :: rest) =
          List.countP (isSpawnOf k) rest from by simp [isSpawnOf]] at base
      rw [count_ext (by simp)]
      exact base
  case run_count =>
      intro hnd k ok hk
      rw [count_ext (by simp), count_ext (by simp)]
      exact I.run_count hnd k ok hk
  case ch_err =>
      intro hf
      rw [hfin] at hf
      injection hf with h1
      exact absurd h1 (by simp)
  case ch_ok =>
      intro _
      refine Or.inr ?_
      dsimp only
      rw [hrest]
      simp

theorem inv_main_runFinalF {preL : List Nat} {cbs : List (String × Bool)} {fin : Option Bool}
    {c : Config} {tr : List Ev} {rest : List MAct}
    (I : Inv preL cbs fin c tr) (hm : c.mainP = MAct.runFinal false :: rest) :
    Inv preL cbs fin { c with mainP := ([] : List MAct) } (tr ++ [Ev.runFinal false]) := by
  have hsuf : (MAct.runFinal false :: rest) <:+ mainProg cbs fin := hm ▸ I.main_suffix
  obtain ⟨hfin, hrest⟩ := hp_runFinal hsuf
  have hmp : c.mainP = [MAct.runFinal false, MAct.closeHandle] := by rw [hm, hrest]
  have hdtr : Ev.disarm ∈ tr := I.mark_disarm.2 (by rw [hmp]; simp)
  have hstT : Ev.setTerm ∈ tr := I.mark_setTerm.2 (by rw [hmp]; simp)
  have hslT : Ev.sleepGrade ∈ tr := I.mark_sleep.2 (by rw [hmp]; simp)
  have hsbT : Ev.spawnBcast ∈ tr := I.mark_spawnB.2 (by rw [hmp]; simp)
  have hwaT : Ev.waitAll ∈ tr := I.mark_waitAll.2 (by rw [hmp]; simp)
  have hrfnotin : Ev.runFinal false ∉ tr := fun hr =>
    (I.mark_runFinal false hr) (by rw [hm]; exact List.mem_cons_self _ _)
  constructor
  case term_iff => rw [mem_ext_iff (by simp)]; exact I.term_iff
  case exited_iff => rw [mem_ext_iff (by simp)]; exact I.exited_iff
  case main_suffix => exact List.nil_suffix
  case bcast_iff => rw [mem_ext_iff (by simp)]; exact I.bcast_iff
  case mark_setTerm =>
      constructor
      · intro _; simp
      · intro _; exact mem_ext hstT
  case mark_sleep =>
      constructor
      · intro _; simp
      · intro _; exact mem_ext hslT
  case mark_spawnB =>
      constructor
      · intro _; simp
      · intro _; exact mem_ext hsbT
  case mark_waitAll =>
      constructor
      · intro _; simp
      · intro _; exact mem_ext hwaT
  case mark_disarm =>
      constructor
      · intro _; simp
      · intro _; exact mem_ext hdtr
  case mark_runFinal =>
      intro b hb
      simp
  case armed_inv =>
      intro ha
      have hfa := I.disarm_armed hdtr
      dsimp only at ha
      rw [hfa] at ha
      exact absurd ha (by simp)
  case disarm_armed =>
      intro _
      dsimp only
      exact I.disarm_armed hdtr
  case final_before =>
      intro b hb
      rcases List.mem_append.1 hb with h | h
      · exact before_append (I.final_before b h)
      · simp only [List.mem_singleton] at h
        injection h with h1
        subst h1
        exact before_append (before_of_not_mem hrfnotin hdtr)
  case pending_iff =>
      rw [mem_ext_iff (by simp)]
      exact I.pending_iff
  case fire_expire =>
      intro hf
      rw [mem_ext_iff (by simp)] at hf
      exact mem_ext (I.fire_expire hf)
  case bcast_sleep =>
      intro hs
      rw [mem_ext_iff (by simp)] at hs
      exact before_append (I.bcast_sleep hs)
  case close_term =>
      intro i hi
      rw [mem_ext_iff (by simp)] at hi
      exact before_append (I.close_term i hi)
  case listeners_pre => exact I.listeners_pre
  case listeners_src => intro j' hj'; exact (I.listeners_src j' hj').imp id mem_ext
  case bcast_src => intro l hl j' hj'; exact (I.bcast_src l hl j' hj').imp id before_append
  case close_src =>
      intro j' hj'
      rw [mem_ext_iff (by simp)] at hj'
      exact (I.close_src j' hj').imp id before_append
  case bcast_cover => intro l hl i hi; exact (I.bcast_cover l hl i hi).imp id mem_ext
  case wait_pending =>
      intro hw
      rw [mem_ext_iff (by simp)] at hw
      exact I.wait_pending hw
  case pending_src => exact I.pending_src
  case spawn_count =>
      intro k
      have base := I.spawn_count k
      rw [hmp, show List.countP (isSpawnOf k) [MAct.runFinal false, MAct.closeHandle] = 0 from
        by simp [isSpawnOf]] at base
      rw [count_ext (by simp)]
      simpa using base
  case run_count =>
      intro hnd k ok hk
      rw [count_ext (by simp), count_ext (by simp)]
      exact I.run_count hnd k ok hk
  case ch_err =>
      intro _
      refine ⟨?_, by simp⟩
      rw [mem_ext_iff (by simp)]
      exact (I.ch_err hfin).1
  case ch_ok =>
      intro hf
      exact absurd hfin hf

theorem inv_main_closeHandle {preL : List Nat} {cbs : List (String × Bool)} {fin : Option Bool}
    {c : Config} {tr : List Ev} {rest : List MAct}
    (I : Inv preL cbs fin c tr) (hm : c.mainP = MAct.closeHandle :: rest) :
    Inv preL cbs fin { c with mainP := rest } (tr ++ [Ev.closeHandle]) := by
  have hsuf : (MAct.closeHandle :: rest) <:+ mainProg cbs fin := hm ▸ I.main_suffix
  have hrest := hp_closeHandle hsuf
  have hmp : c.mainP = [MAct.closeHandle] := by rw [hm, hrest]
  have hdtr : Ev.disarm ∈ tr := I.mark_disarm.2 (by rw [hmp]; simp)
  have hstT : Ev.setTerm ∈ tr := I.mark_setTerm.2 (by rw [hmp]; simp)
  have hslT : Ev.sleepGrade ∈ tr := I.mark_sleep.2 (by rw [hmp]; simp)
  have hsbT : Ev.spawnBcast ∈ tr := I.mark_spawnB.2 (by rw [hmp]; simp)
  have hwaT : Ev.waitAll ∈ tr := I.mark_waitAll.2 (by rw [hmp]; simp)
  constructor
  case term_iff => rw [mem_ext_iff (by simp)]; exact I.term_iff
  case exited_iff => rw [mem_ext_iff (by simp)]; exact I.exited_iff
  case main_suffix => exact suffix_pop hsuf
  case bcast_iff => rw [mem_ext_iff (by simp)]; exact I.bcast_iff
  case mark_setTerm =>
      constructor
      · intro _; rw [hrest]; simp
      · intro _; exact mem_ext hstT
  case mark_sleep =>
      constructor
      · intro _; rw [hrest]; simp
      · intro _; exact mem_ext hslT
  case mark_spawnB =>
      constructor
      · intro _; rw [hrest]; simp
      · intro _; exact mem_ext hsbT
  case mark_waitAll =>
      constructor
      · intro _; rw [hrest]; simp
      · intro _; exact mem_ext hwaT
  case mark_disarm =>
      constructor
      · intro _; rw [hrest]; simp
      · intro _; exact mem_ext hdtr
  case mark_runFinal =>
      intro b hb
      rw [hrest]
      simp
  case armed_inv =>
      intro ha
      have hfa := I.disarm_armed hdtr
      dsimp only at ha
      rw [hfa] at ha
      exact absurd ha (by simp)
  case disarm_armed =>
      intro _
      dsimp only
      exact I.disarm_armed hdtr
  case final_before =>
      intro b hb
      rw [mem_ext_iff (by simp)] at hb
      exact before_append (I.final_before b hb)
  case pending_iff =>
      rw [mem_ext_iff (by simp)]
      exact I.pending_iff
  case fire_expire =>
      intro hf
      rw [mem_ext_iff (by simp)] at hf
      exact mem_ext (I.fire_expire hf)
  case bcast_sleep =>
      intro hs
      rw [mem_ext_iff (by simp)] at hs
      exact before_append (I.bcast_sleep hs)
  case close_term =>
      intro i hi
      rw [mem_ext_iff (by simp)] at hi
      exact before_append (I.close_term i hi)
  case listeners_pre => exact I.listeners_pre
  case listeners_src => intro j' hj'; exact (I.listeners_src j' hj').imp id mem_ext
  case bcast_src => intro l hl j' hj'; exact (I.bcast_src l hl j' hj').imp id before_append
  case close_src =>
      intro j' hj'
      rw [mem_ext_iff (by simp)] at hj'
      exact (I.close_src j' hj').imp id before_append
  case bcast_cover => intro l hl i hi; exact (I.bcast_cover l hl i hi).imp id mem_ext
  case wait_pending =>
      intro hw
      rw [mem_ext_iff (by simp)] at hw
      exact I.wait_pending hw
  case pending_src => exact I.pending_src
  case spawn_count =>
      intro k
      have base := I.spawn_count k
      rw [hm, show List.countP (isSpawnOf k) (MAct.closeHandle :: rest) =
          List.countP (isSpawnOf k) rest from by simp [isSpawnOf]] at base
      rw [count_ext (by simp)]
      exact base
  case run_count =>
      intro hnd k ok hk
      rw [count_ext (by simp), count_ext (by simp)]
      exact I.run_count hnd k ok hk
  case ch_err =>
      intro hf
      exact absurd hmp (I.ch_err hf).2
  case ch_ok =>
      intro _
      exact Or.inl (by simp)

/-- One system step preserves the invariant. -/
theorem inv_step {preL : List Nat} {cbs : List (String × Bool)} {fin : Option Bool}
    {c : Config} {tr : List Ev} {t : Tid} {c' : Config} {e : Ev}
    (I : Inv preL cbs fin c tr) (h : step c t = some (c', e)) :
    Inv preL cbs fin c' (tr ++ [e]) := by
  unfold step at h
  by_cases hex : c.exited
  · rw [if_pos hex] at h
    exact absurd h (by simp)
  · rw [if_neg hex] at h
    cases t with
    | tmain =>
        unfold mainStep at h
        cases hm : c.mainP with
        | nil => rw [hm] at h; simp at h
        | cons a rest =>
            rw [hm] at h
            cases a with
            | setTerm =>
                dsimp only at h
                rw [Option.some.injEq, Prod.mk.injEq] at h
                obtain ⟨hc, he⟩ := h
                subst hc; subst he
                exact inv_main_setTerm I hm
            | spawnBcast =>
                dsimp only at h
                rw [Option.some.injEq, Prod.mk.injEq] at h
                obtain ⟨hc, he⟩ := h
                subst hc; subst he
                exact inv_main_spawnB I hm
            | sleepGrade =>
                dsimp only at h
                rw [Option.some.injEq, Prod.mk.injEq] at h
                obtain ⟨hc, he⟩ := h
                subst hc; subst he
                exact inv_main_sleep I hm
            | armDeadline =>
                dsimp only at h
                rw [Option.some.injEq, Prod.mk.injEq] at h
                obtain ⟨hc, he⟩ := h
                subst hc; subst he
                exact inv_main_arm I hm
            | spawnOp ka oa =>
                dsimp only at h
                rw [Option.some.injEq, Prod.mk.injEq] at h
                obtain ⟨hc, he⟩ := h
                subst hc; subst he
                exact inv_main_spawnOp I hm
            | waitAll =>
                dsimp only at h
                by_cases hp : c.pending = []
                · rw [if_pos hp] at h
                  rw [Option.some.injEq, Prod.mk.injEq] at h
                  obtain ⟨hc, he⟩ := h
                  subst hc; subst he
                  exact inv_main_waitAll I hm hp
                · rw [if_neg hp] at h
                  exact absurd h (by simp)
            | disarm =>
                dsimp only at h
                rw [Option.some.injEq, Prod.mk.injEq] at h
                obtain ⟨hc, he⟩ := h
                subst hc; subst he
                exact inv_main_disarm I hm
            | runFinal ok =>
                cases ok with
                | true =>
                    dsimp only at h
                    rw [Option.some.injEq, Prod.mk.injEq] at h
                    obtain ⟨hc, he⟩ := h
                    subst hc; subst he
                    exact inv_main_runFinalT I hm
                | false =>
                    dsimp only at h
                    rw [Option.some.injEq, Prod.mk.injEq] at h
                    obtain ⟨hc, he⟩ := h
                    subst hc; subst he
                    exact inv_main_runFinalF I hm
            | closeHandle =>
                dsimp only at h
                rw [Option.some.injEq, Prod.mk.injEq] at h
                obtain ⟨hc, he⟩ := h
                subst hc; subst he
                exact inv_main_closeHandle I hm
    | tbcast =>
        cases hb : c.bcastP with
        | none => rw [hb] at h; simp at h
        | some l =>
            cases l with
            | nil => rw [hb] at h; simp at h
            | cons i rest =>
                rw [hb] at h
                dsimp only at h
                rw [Option.some.injEq, Prod.mk.injEq] at h
                obtain ⟨hc, he⟩ := h
                subst hc; subst he
                exact inv_step_bcast I hb
    | top kv =>
        dsimp only at h
        by_cases hkv : kv ∈ c.pending
        · rw [if_pos hkv] at h
          rw [Option.some.injEq, Prod.mk.injEq] at h
          obtain ⟨hc, he⟩ := h
          subst hc; subst he
          exact inv_step_op I hkv
        · rw [if_neg hkv] at h
          exact absurd h (by simp)
    | ttimer =>
        dsimp only at h
        by_cases hab : c.armed = true
        · rw [if_pos hab] at h
          rw [Option.some.injEq, Prod.mk.injEq] at h
          obtain ⟨hc, he⟩ := h
          subst hc; subst he
          exact inv_step_timer_expire I hab
        · rw [if_neg hab] at h
          by_cases hfp : c.firePending = true
          · rw [if_pos hfp] at h
            rw [Option.some.injEq, Prod.mk.injEq] at h
            obtain ⟨hc, he⟩ := h
            subst hc; subst he
            exact inv_step_timer_fire I (by simp at hab; exact hab) hfp
          · rw [if_neg hfp] at h
            exact absurd h (by simp)
    | tsub =>
        cases hs : c.subP with
        | nil => rw [hs] at h; simp at h
        | cons j rest =>
            rw [hs] at h
            dsimp only at h
            rw [Option.some.injEq, Prod.mk.injEq] at h
            obtain ⟨hc, he⟩ := h
            subst hc; subst he
            exact inv_step_sub I

/-- The invariant holds along any run. -/
theorem inv_run {preL : List Nat} {cbs : List (String × Bool)} {fin : Option Bool} :
    ∀ (s : List Tid) {c : Config} {tr : List Ev}, Inv preL cbs fin c tr →
      Inv preL cbs fin (run c s).1 (tr ++ (run c s).2) := by
  intro s
  induction s with
  | nil => intro c tr I; simpa [run] using I
  | cons t s ih =>
      intro c tr I
      cases hstep : step c t with
      | none => simpa only [run, hstep] using ih I
      | some ce =>
          have I' := inv_step I (by rw [hstep])
          have := ih I'
          simpa only [run, hstep, List.append_assoc, List.singleton_append,
            List.cons_append] using this

/-- The invariant at the end of a run from the initial state. -/
theorem inv_of_run (preL : List Nat) (cbs : List (String × Bool)) (fin : Option Bool)
    (subs : List Nat) (s : List Tid) :
    Inv preL cbs fin (run (initConf preL cbs fin subs) s).1
      (run (initConf preL cbs fin subs) s).2 := by
  have := inv_run s (inv_init preL cbs fin subs)
  simpa using this

/-!  Extraction helpers for the counting claims. -/

theorem no_spawn_in_mainP {cbs : List (String × Bool)} {fin : Option Bool}
    {mp : List MAct} (hsuf : mp <:+ mainProg cbs fin) (hw : MAct.waitAll ∉ mp) :
    ∀ k, mp.countP (isSpawnOf k) = 0 := by
  intro k
  rw [List.countP_eq_zero]
  intro a ha hpa
  have hB : (MAct.waitAll :: MAct.disarm :: finActs fin) <:+ mainProg cbs fin := by
    rw [mainProg_decomp]; exact List.suffix_append _ _
  rcases suffix_total hsuf hB with hc | hc
  · have hmem := hc.subset ha
    cases a
    case spawnOp k' b => rcases fin with _ | bb <;> simp [finActs] at hmem
    all_goals simp [isSpawnOf] at hpa
  · exact hw (hc.subset (List.mem_cons_self _ _))

theorem mainProg_countP_one {cbs : List (String × Bool)} {fin : Option Bool}
    {k : String} {ok : Bool} (hnd : (cbs.map Prod.fst).Nodup) (hk : (k, ok) ∈ cbs) :
    (mainProg cbs fin).countP (isSpawnOf k) = 1 := by
  have h1 : (mainProg cbs fin).countP (isSpawnOf k) =
      cbs.countP (fun kv => kv.1 == k) := by
    rcases fin with _ | b <;>
      · simp [mainProg, dispatchActs, finActs, isSpawnOf, List.countP_append,
          List.countP_map, Function.comp]
        rfl
  have h2 : cbs.countP (fun kv => kv.1 == k) = (cbs.map Prod.fst).count k := by
    rw [List.count_eq_countP, List.countP_map]
    rfl
  have h3 : (cbs.map Prod.fst).count k = 1 :=
    List.count_eq_one_of_mem hnd (List.mem_map.2 ⟨(k, ok), hk, rfl⟩)
  omega

/-!  Registration-phase lemmas. -/

theorem addMany_isTerminating {Op : Type} (p : PlanR Op) (many : List (String × Op)) :
    (PlanR.AddMany p many).isTerminating = p.isTerminating := by
  induction many generalizing p with
  | nil => rfl
  | cons kv rest ih =>
      exact ih { p with callbacks := fun k => if k = kv.1 then some kv.2 else p.callbacks k }

theorem addMany_callbacks_notMem {Op : Type} (p : PlanR Op) (many : List (String × Op))
    (k : String) (hk : k ∉ many.map Prod.fst) :
    (PlanR.AddMany p many).callbacks k = p.callbacks k := by
  induction many generalizing p with
  | nil => rfl
  | cons kv rest ih =>
      simp only [List.map_cons, List.mem_cons, not_or] at hk
      have h2 := ih { p with callbacks := fun k' => if k' = kv.1 then some kv.2 else p.callbacks k' } hk.2
      exact h2.trans (by simp [hk.1])

theorem addMany_callbacks_mem {Op : Type} (p : PlanR Op) (many : List (String × Op))
    (k : String) (v : Op) (hnd : (many.map Prod.fst).Nodup) (hmem : (k, v) ∈ many) :
    (PlanR.AddMany p many).callbacks k = some v := by
  induction many generalizing p with
  | nil => simp at hmem
  | cons kv rest ih =>
      simp only [List.map_cons, List.nodup_cons] at hnd
      rcases List.mem_cons.1 hmem with he | hm
      · have hk : k ∉ rest.map Prod.fst := by
          intro hkk
          apply hnd.1
          rw [← he]
          exact hkk
        have h2 := addMany_callbacks_notMem
          { p with callbacks := fun k' => if k' = kv.1 then some kv.2 else p.callbacks k' }
          rest k hk
        refine h2.trans ?_
        rw [← he]
        simp
      · exact ih { p with callbacks := fun k' => if k' = kv.1 then some kv.2 else p.callbacks k' }
          hnd.2 hm

/-- A sample plan used by the concrete witnesses, mirroring
NewPlanWithTimer's construction (signals SIGINT, SIGTERM, SIGHUP). -/
def samplePlan : PlanR String :=
  { Signals := [2, 15, 1], Timeout := 20, GradePeriod := 5,
    callbacks := fun _ => none, finalCallback := none,
    isTerminating := false, termListeners := [] }

/-!  Counting invariant for the double-Start mutex model. -/

theorem sstep_counts {c c' : SConfig} {w : Bool} (h : sstep c w = some c') :
    c'.listenersInstalled + c'.progA.count SAct.spawnListener
        + c'.progB.count SAct.spawnListener =
      c.listenersInstalled + c.progA.count SAct.spawnListener
        + c.progB.count SAct.spawnListener := by
  unfold sstep at h
  cases w with
  | false =>
      rw [show (if (false : Bool) then c.progB else c.progA) = c.progA from by simp] at h
      cases hp : c.progA with
      | nil => rw [hp] at h; simp at h
      | cons a rest =>
          rw [hp] at h
          cases a with
          | lock =>
              dsimp only at h
              by_cases hh : c.holder = none
              · rw [if_pos hh] at h
                injection h with h1
                subst h1
                simp [withProg, hp, List.count_cons]
              · rw [if_neg hh] at h; simp at h
          | mkChan =>
              dsimp only at h
              injection h with h1
              subst h1
              simp [withProg, hp, List.count_cons]
          | spawnListener =>
              dsimp only at h
              injection h with h1
              subst h1
              simp [withProg, hp, List.count_cons]
              omega
          | unlock =>
              dsimp only at h
              injection h with h1
              subst h1
              simp [withProg, hp, List.count_cons]
  | true =>
      rw [show (if (true : Bool) then c.progB else c.progA) = c.progB from by simp] at h
      cases hp : c.progB with
      | nil => rw [hp] at h; simp at h
      | cons a rest =>
          rw [hp] at h
          cases a with
          | lock =>
              dsimp only at h
              by_cases hh : c.holder = none
              · rw [if_pos hh] at h
                injection h with h1
                subst h1
                simp [withProg, hp, List.count_cons]
              · rw [if_neg hh] at h; simp at h
          | mkChan =>
              dsimp only at h
              injection h with h1
              subst h1
              simp [withProg, hp, List.count_cons]
          | spawnListener =>
              dsimp only at h
              injection h with h1
              subst h1
              simp [withProg, hp, List.count_cons]
              omega
          | unlock =>
              dsimp only at h
              injection h with h1
              subst h1
              simp [withProg, hp, List.count_cons]

theorem srun_counts : ∀ (ws : List Bool) (c : SConfig),
    (srun c ws).listenersInstalled + (srun c ws).progA.count SAct.spawnListener
        + (srun c ws).progB.count SAct.spawnListener =
      c.listenersInstalled + c.progA.count SAct.spawnListener
        + c.progB.count SAct.spawnListener := by
  intro ws
  induction ws with
  | nil => intro c; simp [srun]
  | cons w ws ih =>
      intro c
      cases hs : sstep c w with
      | none => simp only [srun, hs]; exact ih c
      | some c' =>
          have h2 := ih c'
          rw [show srun c (w :: ws) = srun c' ws from by simp [srun, hs]]
          rw [h2]
          exact sstep_counts hs

/-!  The claims. -/

/-- C1 counterexample: a complete run of Start in which the single
cleanup operation finishes (waitAll passes), the deadline never fires,
the final callback runs and returns an error — and the completion
handle is never closed, although the shutdown goroutine has finished.
This refutes the claim that the sequence still reaches Done when the
final callback errors. -/
theorem c1_counterexample :
    Ev.runFinal false ∈ (run (initConf [] [("op1", true)] (some false) [])
      [Tid.tmain, Tid.tmain, Tid.tmain, Tid.tmain, Tid.tmain, Tid.top ("op1", true),
       Tid.tmain, Tid.tmain, Tid.tmain]).2 ∧
    Ev.waitAll ∈ (run (initConf [] [("op1", true)] (some false) [])
      [Tid.tmain, Tid.tmain, Tid.tmain, Tid.tmain, Tid.tmain, Tid.top ("op1", true),
       Tid.tmain, Tid.tmain, Tid.tmain]).2 ∧
    Ev.deadlineFire ∉ (run (initConf [] [("op1", true)] (some false) [])
      [Tid.tmain, Tid.tmain, Tid.tmain, Tid.tmain, Tid.tmain, Tid.top ("op1", true),
       Tid.tmain, Tid.tmain, Tid.tmain]).2 ∧
    (run (initConf [] [("op1", true)] (some false) [])
      [Tid.tmain, Tid.tmain, Tid.tmain, Tid.tmain, Tid.tmain, Tid.top ("op1", true),
       Tid.tmain, Tid.tmain, Tid.tmain]).1.mainP = [] ∧
    Ev.closeHandle ∉ (run (initConf [] [("op1", true)] (some false) [])
      [Tid.tmain, Tid.tmain, Tid.tmain, Tid.tmain, Tid.tmain, Tid.top ("op1", true),
       Tid.tmain, Tid.tmain, Tid.tmain]).2 := by
  refine ⟨by decide, by decide, by decide, by decide, by decide⟩

/-- C1 (amended): when the final callback is set and returns an error
the shutdown goroutine logs it and returns without close(sigChannel),
so the completion handle is never closed in any run — Wait blocks
forever; the handle is closed on complete runs exactly when the final
callback is unset or returns nil. -/
theorem c1_final_error_blocks_done (preL : List Nat) (cbs : List (String × Bool))
    (subs : List Nat) (sched : List Tid) :
    (Ev.closeHandle ∉ (run (initConf preL cbs (some false) subs) sched).2) ∧
    (∀ fin : Option Bool, fin ≠ some false →
      (run (initConf preL cbs fin subs) sched).1.mainP = [] →
      Ev.closeHandle ∈ (run (initConf preL cbs fin subs) sched).2) := by
  constructor
  · exact ((inv_of_run preL cbs (some false) subs sched).ch_err rfl).1
  · intro fin hf hdone
    rcases (inv_of_run preL cbs fin subs sched).ch_ok hf with h | h
    · exact h
    · rw [hdone] at h
      simp at h

theorem c1_witness :
    Ev.closeHandle ∉ (run (initConf [] [] (some false) []) (List.replicate 8 Tid.tmain)).2 ∧
    Ev.closeHandle ∈ (run (initConf [] [] (some true) []) (List.replicate 8 Tid.tmain)).2 :=
  ⟨(c1_final_error_blocks_done [] [] [] (List.replicate 8 Tid.tmain)).1,
   (c1_final_error_blocks_done [] [] [] (List.replicate 8 Tid.tmain)).2 (some true)
     (by decide) (by decide)⟩

/-- C2 (code bug): the interruptListen mutex of Start only serializes
the body of Start and is released when Start returns (deferred
unlock), so it cannot stop a second invocation from installing a
second OS-signal listener goroutine: in every execution of two Start
calls in which both bodies complete — including overlapping ones, the
second blocking on the mutex mid-way — exactly two signal listener
goroutines are installed. -/
theorem c2_two_listeners (sched : List Bool)
    (hA : (srun sInit sched).progA = []) (hB : (srun sInit sched).progB = []) :
    (srun sInit sched).listenersInstalled = 2 := by
  have h := srun_counts sched sInit
  rw [hA, hB] at h
  simp only [List.count_nil] at h
  have hinit : sInit.listenersInstalled + sInit.progA.count SAct.spawnListener
      + sInit.progB.count SAct.spawnListener = 2 := by decide
  omega

theorem c2_witness :
    ((srun sInit [false, true, false, false, false, true, true, true, true]).progA = [] ∧
     (srun sInit [false, true, false, false, false, true, true, true, true]).progB = []) ∧
    (srun sInit [false, true, false, false, false, true, true, true, true]).listenersInstalled = 2 :=
  ⟨⟨by decide, by decide⟩,
   c2_two_listeners [false, true, false, false, false, true, true, true, true]
     (by decide) (by decide)⟩

/-- C3 counterexample: the broadcast that closes the pre-signal
listener channels runs in its own goroutine; the Go memory model does
not order it before the grade-period sleep or before dispatch.  In
this complete run the listener channel registered before the signal is
closed only after the sleep has begun and after a cleanup operation
was dispatched and even finished — refuting the claim that every
pre-signal listener is signaled strictly before the sleep and strictly
before any dispatch. -/
theorem c3_counterexample :
    Ev.closeListener 7 ∈ (run (initConf [7] [("a", true)] none [])
      [Tid.tmain, Tid.tmain, Tid.tmain, Tid.tmain, Tid.tmain, Tid.top ("a", true),
       Tid.tmain, Tid.tmain, Tid.tmain, Tid.tbcast]).2 ∧
    Ev.sleepGrade ∈ (run (initConf [7] [("a", true)] none [])
      [Tid.tmain, Tid.tmain, Tid.tmain, Tid.tmain, Tid.tmain, Tid.top ("a", true),
       Tid.tmain, Tid.tmain, Tid.tmain, Tid.tbcast]).2 ∧
    Ev.opRun "a" true ∈ (run (initConf [7] [("a", true)] none [])
      [Tid.tmain, Tid.tmain, Tid.tmain, Tid.tmain, Tid.tmain, Tid.top ("a", true),
       Tid.tmain, Tid.tmain, Tid.tmain, Tid.tbcast]).2 ∧
    ¬ Before (Ev.closeListener 7) Ev.sleepGrade (run (initConf [7] [("a", true)] none [])
      [Tid.tmain, Tid.tmain, Tid.tmain, Tid.tmain, Tid.tmain, Tid.top ("a", true),
       Tid.tmain, Tid.tmain, Tid.tmain, Tid.tbcast]).2 ∧
    ¬ Before (Ev.closeListener 7) (Ev.opRun "a" true) (run (initConf [7] [("a", true)] none [])
      [Tid.tmain, Tid.tmain, Tid.tmain, Tid.tmain, Tid.tmain, Tid.top ("a", true),
       Tid.tmain, Tid.tmain, Tid.tmain, Tid.tbcast]).2 ∧
    (run (initConf [7] [("a", true)] none [])
      [Tid.tmain, Tid.tmain, Tid.tmain, Tid.tmain, Tid.tmain, Tid.top ("a", true),
       Tid.tmain, Tid.tmain, Tid.tmain, Tid.tbcast]).1.bcastP = some [] := by
  refine ⟨by decide, by decide, by decide, by decide, by decide, by decide⟩

/-- C3 (amended): every close of a listener channel happens strictly
after isTerminating flips to true, and the broadcast goroutine is
spawned strictly before the grade-period sleep begins; the closes
themselves are concurrent with the sleep and the dispatch (not ordered
before them), but in every run in which the broadcast goroutine has
drained its captured slice, every pre-signal listener has been
closed. -/
theorem c3_broadcast_ordering (preL : List Nat) (cbs : List (String × Bool))
    (fin : Option Bool) (subs : List Nat) (sched : List Tid) :
    (∀ i, Ev.closeListener i ∈ (run (initConf preL cbs fin subs) sched).2 →
      Before Ev.setTerm (Ev.closeListener i) (run (initConf preL cbs fin subs) sched).2) ∧
    (Ev.sleepGrade ∈ (run (initConf preL cbs fin subs) sched).2 →
      Before Ev.spawnBcast Ev.sleepGrade (run (initConf preL cbs fin subs) sched).2) ∧
    ((run (initConf preL cbs fin subs) sched).1.bcastP = some [] →
      ∀ i ∈ preL, Ev.closeListener i ∈ (run (initConf preL cbs fin subs) sched).2) := by
  have I := inv_of_run preL cbs fin subs sched
  refine ⟨I.close_term, I.bcast_sleep, ?_⟩
  intro hb i hi
  rcases I.bcast_cover [] hb i hi with h | h
  · simp at h
  · exact h

theorem c3_witness :
    Before Ev.setTerm (Ev.closeListener 5) (run (initConf [5] [] none [])
      [Tid.tmain, Tid.tmain, Tid.tbcast, Tid.tmain, Tid.tmain, Tid.tmain, Tid.tmain, Tid.tmain]).2 ∧
    Before Ev.spawnBcast Ev.sleepGrade (run (initConf [5] [] none [])
      [Tid.tmain, Tid.tmain, Tid.tbcast, Tid.tmain, Tid.tmain, Tid.tmain, Tid.tmain, Tid.tmain]).2 ∧
    Ev.closeListener 5 ∈ (run (initConf [5] [] none [])
      [Tid.tmain, Tid.tmain, Tid.tbcast, Tid.tmain, Tid.tmain, Tid.tmain, Tid.tmain, Tid.tmain]).2 :=
  ⟨(c3_broadcast_ordering [5] [] none []
      [Tid.tmain, Tid.tmain, Tid.tbcast, Tid.tmain, Tid.tmain, Tid.tmain, Tid.tmain, Tid.tmain]).1
      5 (by decide),
   (c3_broadcast_ordering [5] [] none []
      [Tid.tmain, Tid.tmain, Tid.tbcast, Tid.tmain, Tid.tmain, Tid.tmain, Tid.tmain, Tid.tmain]).2.1
      (by decide),
   (c3_broadcast_ordering [5] [] none []
      [Tid.tmain, Tid.tmain, Tid.tbcast, Tid.tmain, Tid.tmain, Tid.tmain, Tid.tmain, Tid.tmain]).2.2
      (by decide) 5 (by decide)⟩

/-- Helper: a suffix of the main program that no longer contains the
disarm action no longer contains the arm action either. -/
theorem arm_notin_of_disarm_notin {cbs : List (String × Bool)} {fin : Option Bool}
    {mp : List MAct} (hsuf : mp <:+ mainProg cbs fin) (hd : MAct.disarm ∉ mp) :
    MAct.armDeadline ∉ mp := by
  intro ha
  have hB : (MAct.disarm :: finActs fin) <:+
      (([MAct.setTerm, MAct.spawnBcast, MAct.sleepGrade, MAct.armDeadline] ++
        dispatchActs cbs) ++ [MAct.waitAll]) ++ (MAct.disarm :: finActs fin) :=
    List.suffix_append _ _
  have hsuf2 : mp <:+
      (([MAct.setTerm, MAct.spawnBcast, MAct.sleepGrade, MAct.armDeadline] ++
        dispatchActs cbs) ++ [MAct.waitAll]) ++ (MAct.disarm :: finActs fin) := by
    simpa [mainProg, List.append_assoc] using hsuf
  rcases suffix_total hsuf2 hB with hc | hc
  · have := hc.subset ha
    rcases fin with _ | b <;> simp [finActs] at this
  · exact hd (hc.subset (List.mem_cons_self _ _))

/-- Helper: from a state in which the timer is not armed, not expired,
and can no longer be armed, one step keeps that state and cannot emit
the forced exit. -/
theorem step_safeOff {c : Config} {t : Tid} {c' : Config} {e : Ev}
    (h1 : c.armed = false) (h2 : c.firePending = false)
    (h3 : MAct.armDeadline ∉ c.mainP) (h : step c t = some (c', e)) :
    (c'.armed = false ∧ c'.firePending = false ∧ MAct.armDeadline ∉ c'.mainP) ∧
      e ≠ Ev.deadlineFire := by
  unfold step at h
  by_cases hex : c.exited
  · rw [if_pos hex] at h
    simp at h
  · rw [if_neg hex] at h
    cases t with
    | tmain =>
        unfold mainStep at h
        cases hm : c.mainP with
        | nil => rw [hm] at h; simp at h
        | cons a rest =>
            rw [hm] at h
            have h3r : MAct.armDeadline ∉ a :: rest := hm ▸ h3
            cases a with
            | setTerm =>
                dsimp only at h
                rw [Option.some.injEq, Prod.mk.injEq] at h
                obtain ⟨hc, he⟩ := h
                subst hc; subst he
                exact ⟨⟨h1, h2, fun hc2 => h3r (List.mem_cons_of_mem _ hc2)⟩, by simp⟩
            | spawnBcast =>
                dsimp only at h
                rw [Option.some.injEq, Prod.mk.injEq] at h
                obtain ⟨hc, he⟩ := h
                subst hc; subst he
                exact ⟨⟨h1, h2, fun hc2 => h3r (List.mem_cons_of_mem _ hc2)⟩, by simp⟩
            | sleepGrade =>
                dsimp only at h
                rw [Option.some.injEq, Prod.mk.injEq] at h
                obtain ⟨hc, he⟩ := h
                subst hc; subst he
                exact ⟨⟨h1, h2, fun hc2 => h3r (List.mem_cons_of_mem _ hc2)⟩, by simp⟩
            | armDeadline => exact absurd (List.mem_cons_self _ _) h3r
            | spawnOp ka oa =>
                dsimp only at h
                rw [Option.some.injEq, Prod.mk.injEq] at h
                obtain ⟨hc, he⟩ := h
                subst hc; subst he
                exact ⟨⟨h1, h2, fun hc2 => h3r (List.mem_cons_of_mem _ hc2)⟩, by simp⟩
            | waitAll =>
                dsimp only at h
                by_cases hp : c.pending = []
                · rw [if_pos hp] at h
                  rw [Option.some.injEq, Prod.mk.injEq] at h
                  obtain ⟨hc, he⟩ := h
                  subst hc; subst he
                  exact ⟨⟨h1, h2, fun hc2 => h3r (List.mem_cons_of_mem _ hc2)⟩, by simp⟩
                · rw [if_neg hp] at h; simp at h
            | disarm =>
                dsimp only at h
                rw [Option.some.injEq, Prod.mk.injEq] at h
                obtain ⟨hc, he⟩ := h
                subst hc; subst he
                exact ⟨⟨rfl, h2, fun hc2 => h3r (List.mem_cons_of_mem _ hc2)⟩, by simp⟩
            | runFinal ok =>
                cases ok with
                | true =>
                    dsimp only at h
                    rw [Option.some.injEq, Prod.mk.injEq] at h
                    obtain ⟨hc, he⟩ := h
                    subst hc; subst he
                    exact ⟨⟨h1, h2, fun hc2 => h3r (List.mem_cons_of_mem _ hc2)⟩, by simp⟩
                | false =>
                    dsimp only at h
                    rw [Option.some.injEq, Prod.mk.injEq] at h
                    obtain ⟨hc, he⟩ := h
                    subst hc; subst he
                    exact ⟨⟨h1, h2, by simp⟩, by simp⟩
            | closeHandle =>
                dsimp only at h
                rw [Option.some.injEq, Prod.mk.injEq] at h
                obtain ⟨hc, he⟩ := h
                subst hc; subst he
                exact ⟨⟨h1, h2, fun hc2 => h3r (List.mem_cons_of_mem _ hc2)⟩, by simp⟩
    | tbcast =>
        cases hb : c.bcastP with
        | none => rw [hb] at h; simp at h
        | some l =>
            cases l with
            | nil => rw [hb] at h; simp at h
            | cons i rest =>
                rw [hb] at h
                dsimp only at h
                rw [Option.some.injEq, Prod.mk.injEq] at h
                obtain ⟨hc, he⟩ := h
                subst hc; subst he
                exact ⟨⟨h1, h2, h3⟩, by simp⟩
    | top kv =>
        dsimp only at h
        by_cases hkv : kv ∈ c.pending
        · rw [if_pos hkv] at h
          rw [Option.some.injEq, Prod.mk.injEq] at h
          obtain ⟨hc, he⟩ := h
          subst hc; subst he
          exact ⟨⟨h1, h2, h3⟩, by simp⟩
        · rw [if_neg hkv] at h; simp at h
    | ttimer =>
        dsimp only at h
        rw [if_neg (by simp [h1]), if_neg (by simp [h2])] at h
        simp at h
    | tsub =>
        cases hs : c.subP with
        | nil => rw [hs] at h; simp at h
        | cons j rest =>
            rw [hs] at h
            dsimp only at h
            rw [Option.some.injEq, Prod.mk.injEq] at h
            obtain ⟨hc, he⟩ := h
            subst hc; subst he
            exact ⟨⟨h1, h2, h3⟩, by simp⟩

/-- Helper: from a state where the timer is neither armed nor expired
and can no longer be armed, no continuation produces the forced
exit. -/
theorem run_safeOff : ∀ (s : List Tid) {c : Config},
    c.armed = false → c.firePending = false → MAct.armDeadline ∉ c.mainP →
    Ev.deadlineFire ∉ (run c s).2 := by
  intro s
  induction s with
  | nil => intro c _ _ _; simp [run]
  | cons t s ih =>
      intro c h1 h2 h3
      cases hstep : step c t with
      | none =>
          simp only [run, hstep]
          exact ih h1 h2 h3
      | some ce =>
          obtain ⟨⟨g1, g2, g3⟩, gne⟩ :=
            step_safeOff h1 h2 h3 (show step c t = some (ce.1, ce.2) from by rw [hstep])
          simp only [run, hstep]
          intro hmem
          rcases List.mem_cons.1 hmem with hh | hh
          · exact gne hh.symm
          · exact ih g1 g2 g3 hh

/-- Helper: the part of the deadline contract the code does satisfy:
if timeoutFunc.Stop executes before the timer has expired, the forced
exit can never occur, in that run or any continuation. -/
theorem stop_wins_no_fire (preL : List Nat) (cbs : List (String × Bool)) (fin : Option Bool)
    (subs : List Nat) (s₁ s₂ : List Tid)
    (hd : Ev.disarm ∈ (run (initConf preL cbs fin subs) s₁).2)
    (hne : Ev.timerExpire ∉ (run (initConf preL cbs fin subs) s₁).2) :
    Ev.deadlineFire ∉ (run (initConf preL cbs fin subs) (s₁ ++ s₂)).2 := by
  have I := inv_of_run preL cbs fin subs s₁
  have h1 : (run (initConf preL cbs fin subs) s₁).1.armed = false := I.disarm_armed hd
  have h2 : (run (initConf preL cbs fin subs) s₁).1.firePending = false := by
    rcases Bool.eq_false_or_eq_true ((run (initConf preL cbs fin subs) s₁).1.firePending)
      with hh | hh
    · exact absurd (I.pending_iff.1 hh) hne
    · exact hh
  have h3 : MAct.armDeadline ∉ (run (initConf preL cbs fin subs) s₁).1.mainP :=
    arm_notin_of_disarm_notin I.main_suffix (I.mark_disarm.1 hd)
  intro hmem
  rw [run_append] at hmem
  rcases List.mem_append.1 hmem with hm | hm
  · exact hne (I.fire_expire hm)
  · exact run_safeOff s₂ h1 h2 h3 hm

/-- C4 (code bug): the code evaluated at the failing input.  The single
cleanup operation runs and wg.Wait returns strictly before the deadline
timer expires; the expiry lands in the window between wg.Wait and
timeoutFunc.Stop, so Stop (the disarm event, too late to cancel the
already-started AfterFunc callback, its false result ignored by the
code) does not prevent the pending os.Exit(0), which fires after the
final callback has run — although every dispatched operation completed
before the deadline fired, the forced exit occurs during/after the
final-callback state, which the claim says can never happen. -/
theorem c4_stop_race :
    Before (Ev.opRun "op1" true) Ev.timerExpire (run (initConf [] [("op1", true)] (some true) [])
      [Tid.tmain, Tid.tmain, Tid.tmain, Tid.tmain, Tid.tmain, Tid.top ("op1", true),
       Tid.tmain, Tid.ttimer, Tid.tmain, Tid.tmain, Tid.tmain, Tid.ttimer]).2 ∧
    Before Ev.waitAll Ev.timerExpire (run (initConf [] [("op1", true)] (some true) [])
      [Tid.tmain, Tid.tmain, Tid.tmain, Tid.tmain, Tid.tmain, Tid.top ("op1", true),
       Tid.tmain, Tid.ttimer, Tid.tmain, Tid.tmain, Tid.tmain, Tid.ttimer]).2 ∧
    ¬ Before Ev.disarm Ev.timerExpire (run (initConf [] [("op1", true)] (some true) [])
      [Tid.tmain, Tid.tmain, Tid.tmain, Tid.tmain, Tid.tmain, Tid.top ("op1", true),
       Tid.tmain, Tid.ttimer, Tid.tmain, Tid.tmain, Tid.tmain, Tid.ttimer]).2 ∧
    Ev.disarm ∈ (run (initConf [] [("op1", true)] (some true) [])
      [Tid.tmain, Tid.tmain, Tid.tmain, Tid.tmain, Tid.tmain, Tid.top ("op1", true),
       Tid.tmain, Tid.ttimer, Tid.tmain, Tid.tmain, Tid.tmain, Tid.ttimer]).2 ∧
    Ev.runFinal true ∈ (run (initConf [] [("op1", true)] (some true) [])
      [Tid.tmain, Tid.tmain, Tid.tmain, Tid.tmain, Tid.tmain, Tid.top ("op1", true),
       Tid.tmain, Tid.ttimer, Tid.tmain, Tid.tmain, Tid.tmain, Tid.ttimer]).2 ∧
    Ev.deadlineFire ∈ (run (initConf [] [("op1", true)] (some true) [])
      [Tid.tmain, Tid.tmain, Tid.tmain, Tid.tmain, Tid.tmain, Tid.top ("op1", true),
       Tid.tmain, Tid.ttimer, Tid.tmain, Tid.tmain, Tid.tmain, Tid.ttimer]).2 ∧
    Before (Ev.runFinal true) Ev.deadlineFire (run (initConf [] [("op1", true)] (some true) [])
      [Tid.tmain, Tid.tmain, Tid.tmain, Tid.tmain, Tid.tmain, Tid.top ("op1", true),
       Tid.tmain, Tid.ttimer, Tid.tmain, Tid.tmain, Tid.tmain, Tid.ttimer]).2 := by
  refine ⟨by decide, by decide, by decide, by decide, by decide, by decide, by decide⟩

/-- C5: isTerminating is monotone.  In every run it is true exactly
when the signal-reception write has happened, once set it stays set
under every continuation of the schedule, and none of the registration
operations (Add, AddMany, Finally, NewExitChan) nor the queries
(IsTerminating) modify it. -/
theorem c5_terminating_monotone (preL : List Nat) (cbs : List (String × Bool))
    (fin : Option Bool) (subs : List Nat) (s₁ s₂ : List Tid) :
    ((run (initConf preL cbs fin subs) (s₁ ++ s₂)).1.term = true ↔
      Ev.setTerm ∈ (run (initConf preL cbs fin subs) (s₁ ++ s₂)).2) ∧
    (Ev.setTerm ∈ (run (initConf preL cbs fin subs) s₁).2 →
      Ev.setTerm ∈ (run (initConf preL cbs fin subs) (s₁ ++ s₂)).2) ∧
    (∀ (Op : Type) (p : PlanR Op) (n : String) (op : Op) (many : List (String × Op))
        (f : Op) (j : Nat),
      (PlanR.Add p n op).isTerminating = p.isTerminating ∧
      (PlanR.AddMany p many).isTerminating = p.isTerminating ∧
      (PlanR.Finally p f).isTerminating = p.isTerminating ∧
      (PlanR.NewExitChan p j).1.isTerminating = p.isTerminating ∧
      PlanR.IsTerminating p = p.isTerminating) := by
  refine ⟨(inv_of_run preL cbs fin subs (s₁ ++ s₂)).term_iff, ?_, ?_⟩
  · intro h
    rw [run_append]
    exact List.mem_append_left _ h
  · intro Op p n op many f j
    exact ⟨rfl, addMany_isTerminating p many, rfl, rfl, rfl⟩

theorem c5_witness :
    Ev.setTerm ∈ (run (initConf [] [] none []) ([Tid.tmain] ++ [Tid.tmain])).2 :=
  (c5_terminating_monotone [] [] none [] [Tid.tmain] [Tid.tmain]).2.1 (by decide)

/-- C6: for every callback snapshot (in any iteration order, keys
distinct as in a Go map) and any outcome of each operation, in every
run in which wg.Wait() has completed, each snapshot entry was
dispatched exactly once and its operation ran (and was accounted by
wg.Done) exactly once — an operation returning an error (ok = false)
neither prevents the dispatch nor the completion accounting of any
other entry, since the counts hold for all entries whatever the
individual results. -/
theorem c6_dispatch_exactly_once (preL : List Nat) (cbs : List (String × Bool))
    (fin : Option Bool) (subs : List Nat) (sched : List Tid)
    (hnd : (cbs.map Prod.fst).Nodup)
    (hw : Ev.waitAll ∈ (run (initConf preL cbs fin subs) sched).2) :
    ∀ k ok, (k, ok) ∈ cbs →
      (run (initConf preL cbs fin subs) sched).2.count (Ev.spawnOp k) = 1 ∧
      (run (initConf preL cbs fin subs) sched).2.count (Ev.opRun k ok) = 1 := by
  intro k ok hk
  have I := inv_of_run preL cbs fin subs sched
  have hnospawn := no_spawn_in_mainP I.main_suffix (I.mark_waitAll.1 hw) k
  have h1 := I.spawn_count k
  rw [hnospawn, mainProg_countP_one hnd hk] at h1
  have h2 := I.run_count hnd k ok hk
  have h3 := I.wait_pending hw
  rw [h3] at h2
  simp only [List.count_nil] at h2
  exact ⟨by omega, by omega⟩

theorem c6_witness :
    (run (initConf [] [("a", true), ("b", false)] none [])
      [Tid.tmain, Tid.tmain, Tid.tmain, Tid.tmain, Tid.tmain, Tid.tmain,
       Tid.top ("a", true), Tid.top ("b", false), Tid.tmain, Tid.tmain, Tid.tmain]).2.count
      (Ev.spawnOp "a") = 1 ∧
    (run (initConf [] [("a", true), ("b", false)] none [])
      [Tid.tmain, Tid.tmain, Tid.tmain, Tid.tmain, Tid.tmain, Tid.tmain,
       Tid.top ("a", true), Tid.top ("b", false), Tid.tmain, Tid.tmain, Tid.tmain]).2.count
      (Ev.opRun "a" true) = 1 :=
  c6_dispatch_exactly_once [] [("a", true), ("b", false)] none []
    [Tid.tmain, Tid.tmain, Tid.tmain, Tid.tmain, Tid.tmain, Tid.tmain,
     Tid.top ("a", true), Tid.top ("b", false), Tid.tmain, Tid.tmain, Tid.tmain]
    (by decide) (by decide) "a" true (by decide)

/-- C7: AddMany over the iteration sequence of its map argument leaves
the registry exactly as the equivalent sequence of Add calls does; a
name already present is overwritten (lookup after Add or after AddMany
of an entry yields that entry's operation), and names not in the map
are untouched. -/
theorem c7_addMany_eq_fold_add : ∀ (Op : Type) (p : PlanR Op) (many : List (String × Op)),
    PlanR.AddMany p many = many.foldl (fun q kv => PlanR.Add q kv.1 kv.2) p ∧
    (∀ n v, (PlanR.Add p n v).callbacks n = some v) ∧
    (∀ k v, (many.map Prod.fst).Nodup → (k, v) ∈ many →
      (PlanR.AddMany p many).callbacks k = some v) ∧
    (∀ k, k ∉ many.map Prod.fst → (PlanR.AddMany p many).callbacks k = p.callbacks k) := by
  intro Op p many
  refine ⟨rfl, ?_, ?_, ?_⟩
  · intro n v
    simp [PlanR.Add]
  · intro k v hnd hm
    exact addMany_callbacks_mem p many k v hnd hm
  · intro k hk
    exact addMany_callbacks_notMem p many k hk

theorem c7_witness :
    (PlanR.AddMany samplePlan [("a", "x")]).callbacks "a" = some "x" ∧
    (PlanR.AddMany samplePlan [("a", "x")]).callbacks "b" = samplePlan.callbacks "b" :=
  ⟨(c7_addMany_eq_fold_add String samplePlan [("a", "x")]).2.2.1 "a" "x"
      (by simp) (by simp),
   (c7_addMany_eq_fold_add String samplePlan [("a", "x")]).2.2.2 "b" (by simp)⟩

/-- C8: Wait(ctx) is literally a receive on the channel returned by
Start(ctx) (a struct channel that is never sent on), so Wait has
returned in a run exactly when that handle has been closed, which
happens exactly when the shutdown goroutine executed
close(sigChannel). -/
theorem c8_wait_equiv_start (preL : List Nat) (cbs : List (String × Bool))
    (fin : Option Bool) (subs : List Nat) (sched : List Tid) :
    waitReturns preL cbs fin subs sched =
      recvUnblocks (startHandle preL cbs fin subs sched) ∧
    ((startHandle preL cbs fin subs sched).closed = true ↔
      Ev.closeHandle ∈ (run (initConf preL cbs fin subs) sched).2) ∧
    (waitReturns preL cbs fin subs sched = true ↔
      Ev.closeHandle ∈ (run (initConf preL cbs fin subs) sched).2) := by
  refine ⟨rfl, ?_, ?_⟩ <;>
    simp [waitReturns, recvUnblocks, startHandle]

/-- C9: the readiness handler writes 503 with body terminating exactly
when IsTerminating() is true at call time, 200 with body ok exactly
when it is false, and passes the plan state through unmodified. -/
theorem c9_handler_readiness : ∀ (Op : Type) (p : PlanR Op),
    ((PlanR.HandlerFunc p).2 = { status := 503, body := "terminating" } ↔
      p.isTerminating = true) ∧
    ((PlanR.HandlerFunc p).2 = { status := 200, body := "ok" } ↔
      p.isTerminating = false) ∧
    (PlanR.HandlerFunc p).1 = p := by
  intro Op p
  unfold PlanR.HandlerFunc PlanR.IsTerminating statusOK statusServiceUnavailable
  cases hb : p.isTerminating <;> simp [hb]

/-- C10: a listener channel whose NewExitChan registration happens
after the broadcast goroutine has captured the termListeners slice is
never closed by the plan in that run — the broadcast iterates only
over the captured slice value, so such a subscriber waiting on its
channel blocks forever. -/
theorem c10_late_listener_never_closed (preL : List Nat) (cbs : List (String × Bool))
    (fin : Option Bool) (subs : List Nat) (sched : List Tid) (j : Nat)
    (hj : j ∉ preL)
    (hlate : Before Ev.spawnBcast (Ev.newListener j)
      (run (initConf preL cbs fin subs) sched).2) :
    Ev.closeListener j ∉ (run (initConf preL cbs fin subs) sched).2 := by
  intro hc
  have I := inv_of_run preL cbs fin subs sched
  rcases I.close_src j hc with h | h
  · exact hj h
  · exact before_asymm h hlate

theorem c10_witness :
    Ev.closeListener 9 ∉ (run (initConf [] [] none [9])
      [Tid.tmain, Tid.tmain, Tid.tsub, Tid.tmain, Tid.tmain, Tid.tmain, Tid.tmain,
       Tid.tmain]).2 :=
  c10_late_listener_never_closed [] [] none [9]
    [Tid.tmain, Tid.tmain, Tid.tsub, Tid.tmain, Tid.tmain, Tid.tmain, Tid.tmain, Tid.tmain]
    9 (by decide) (by decide)

end ExitPlan
